import Mathlib

/-!
A shallow embedding of the 2-3 finger tree implementation in ttftree.py,
together with proofs of the specified properties.

Modelling conventions:
* A measure is a record of the conversion function, the monoid operator and
  the identity element (the Python class Measure and its subclasses).
* Values stored in a tree are modelled by the type Elem: a leaf holds a raw
  value, while node2 and node3 model the Python Node class with 2 or 3
  children (Node arity validation is expressed by the shape of the type).
  The cached Node and tree annotations of the Python code are pure functions
  of the structure, so they are embedded as the recursive functions Elem.ann
  and Tree.ann rather than as stored fields (the Python constructors always
  store exactly these values).
* The Python spine of a Deep tree uses the derived measure _NodeMeasure whose
  conversion returns the cached annotation of a Node; with annotations
  computed structurally this is exactly what Elem.ann computes on a node, so
  a single measure record serves every level.
* A Digit is embedded as a plain list of elements; the arity bounds checked
  by the Python Digit constructor are captured by the well-formedness
  predicate Tree.wf.
* Operations that raise TreeIsEmpty in Python return Option here, with none
  modelling the raised exception.
-/

namespace Ttftree

structure Measure (α A : Type) where
  convert : α → A
  operator : A → A → A
  identity : A

/-- The monoid laws that the source documentation requires of a measure:
associativity of the operator and the two identity laws. -/
def Measure.Lawful (m : Measure α A) : Prop :=
  (∀ a b c, m.operator (m.operator a b) c = m.operator a (m.operator b c)) ∧
  (∀ a, m.operator m.identity a = a) ∧
  (∀ a, m.operator a m.identity = a)

/-- Values stored in a tree: either a raw value (at the outermost level) or a
Node of 2 or 3 children (inside a spine).  The Python Node constructor
rejects any other arity, so only these two node shapes exist. -/
inductive Elem (α A : Type) where
  | leaf (v : α)
  | node2 (a b : Elem α A)
  | node3 (a b c : Elem α A)
deriving DecidableEq, Repr

/-- The cached annotation of an element.  For a leaf this is the conversion
of the raw value; for a node it is reduce(operator, map(convert, children))
computed by Node, where convert at spine level reads the cached child
annotation (_NodeMeasure). -/
def Elem.ann (m : Measure α A) : Elem α A → A
  | .leaf v => m.convert v
  | .node2 a b => m.operator (Elem.ann m a) (Elem.ann m b)
  | .node3 a b c => m.operator (m.operator (Elem.ann m a) (Elem.ann m b)) (Elem.ann m c)

/-- The raw values stored under an element, in order. -/
def Elem.toListE : Elem α A → List α
  | .leaf v => [v]
  | .node2 a b => a.toListE ++ b.toListE
  | .node3 a b c => a.toListE ++ b.toListE ++ c.toListE

/-- The children of a Node, as iterated by Digit(measure, *node) in the
source.  The leaf case never occurs there (spines hold nodes only); it is
given a harmless value. -/
def Elem.children : Elem α A → List (Elem α A)
  | .leaf v => [.leaf v]
  | .node2 a b => [a, b]
  | .node3 a b c => [a, b, c]

/-- Stratification of elements: at depth 0 an element is a raw value, at
depth n+1 it is a node of depth-n elements.  This reflects which values can
actually sit at a given nesting level of a tree. -/
def Elem.depthOK : Nat → Elem α A → Bool
  | 0, .leaf _ => true
  | n+1, .node2 a b => a.depthOK n && b.depthOK n
  | n+1, .node3 a b c => a.depthOK n && b.depthOK n && c.depthOK n
  | _, _ => false

/-- The cached annotation of a Digit: reduce(operator, map(convert, values))
with no initial element, i.e. a left fold of the element annotations seeded
by the first one.  Digits are never empty in the source (the constructor
rejects arity 0); the empty case is given the identity. -/
def digitAnn (m : Measure α A) : List (Elem α A) → A
  | [] => m.identity
  | x :: xs => xs.foldl (fun acc e => m.operator acc (Elem.ann m e)) (Elem.ann m x)

/-- The three tree shapes of the source: Empty, Single and Deep.  The two
digits of a Deep tree are lists of elements (legal arity 1 to 4 is tracked
by Tree.wf), and the spine holds node elements one depth level up. -/
inductive Tree (α A : Type) where
  | empty
  | single (x : Elem α A)
  | deep (l : List (Elem α A)) (s : Tree α A) (r : List (Elem α A))
deriving DecidableEq, Repr

def Tree.is_empty : Tree α A → Bool
  | .empty => true
  | _ => false

/-- The cached annotation of a tree: identity for Empty, convert(item) for
Single, and operator(operator(left, spine), right) for Deep, exactly as
computed by the Python constructors. -/
def Tree.ann (m : Measure α A) : Tree α A → A
  | .empty => m.identity
  | .single x => Elem.ann m x
  | .deep l s r => m.operator (m.operator (digitAnn m l) (Tree.ann m s)) (digitAnn m r)

/-- The traversal of a tree: every raw value in left-to-right order. -/
def Tree.toList : Tree α A → List α
  | .empty => []
  | .single x => x.toListE
  | .deep l s r => l.flatMap Elem.toListE ++ Tree.toList s ++ r.flatMap Elem.toListE

/-- The top-level element sequence of a tree: the order in which repeated
get_first visits elements at this level (spine nodes are expanded into their
children as without_first pops them). -/
def Tree.elems : Tree α A → List (Elem α A)
  | .empty => []
  | .single x => [x]
  | .deep l s r => l ++ (Tree.elems s).flatMap Elem.children ++ r

/-- Well-formedness at depth d: every digit has 1 to 4 elements of the right
depth (the arity checked by the Digit constructor) and the spine is
well-formed one level deeper. -/
def Tree.wf : Nat → Tree α A → Bool
  | _, .empty => true
  | d, .single x => x.depthOK d
  | d, .deep l s r =>
      decide (1 ≤ l.length) && decide (l.length ≤ 4) && l.all (Elem.depthOK d) &&
      Tree.wf (d+1) s &&
      decide (1 ≤ r.length) && decide (r.length ≤ 4) && r.all (Elem.depthOK d)

/-- Empty.get_first raises TreeIsEmpty (none); Single returns its item; Deep
returns the first element of its left digit. -/
def Tree.get_first : Tree α A → Option (Elem α A)
  | .empty => none
  | .single x => some x
  | .deep l _ _ => l.head?

/-- Empty.get_last raises TreeIsEmpty (none); Single returns its item; Deep
returns the last element of its right digit. -/
def Tree.get_last : Tree α A → Option (Elem α A)
  | .empty => none
  | .single x => some x
  | .deep _ _ r => r.getLast?

/-- Tree.add_first, following the source case by case.  On a Deep tree with
a full left digit, the three elements farthest from the insertion point are
packed into a node pushed onto the spine.  The final catch-all is
unreachable (the guard forces at least four elements). -/
def Tree.add_first (e : Elem α A) : Tree α A → Tree α A
  | .empty => .single e
  | .single x => .deep [e] .empty [x]
  | .deep l s r =>
    if l.length < 4 then .deep (e :: l) s r
    else
      match l with
      | a :: b :: c :: d :: _ => .deep [e, a] (Tree.add_first (.node3 b c d) s) r
      | _ => .empty

/-- Tree.add_last, symmetric to add_first. -/
def Tree.add_last (e : Elem α A) : Tree α A → Tree α A
  | .empty => .single e
  | .single x => .deep [x] .empty [e]
  | .deep l s r =>
    if r.length < 4 then .deep l s (r ++ [e])
    else
      match r with
      | a :: b :: c :: d :: _ => .deep l (Tree.add_last (.node3 a b c) s) [d, e]
      | _ => .empty

/-- Tree.without_first, following the four branches of Deep.without_first in
order: shrink the left digit, else pop a node off the spine and expand it
into the left digit, else collapse to Single, else shift the right digit.
The inner none results are unreachable for trees the source can build. -/
def Tree.without_first : Tree α A → Option (Tree α A)
  | .empty => none
  | .single _ => some .empty
  | .deep l s r =>
    if 1 < l.length then some (.deep l.tail s r)
    else if s.is_empty = false then
      match s.get_first, Tree.without_first s with
      | some nd, some s2 => some (.deep nd.children s2 r)
      | _, _ => none
    else if r.length = 1 then
      match r with
      | x :: _ => some (.single x)
      | [] => none
    else some (.deep (r.take 1) s (r.drop 1))

/-- Tree.without_last, symmetric to without_first. -/
def Tree.without_last : Tree α A → Option (Tree α A)
  | .empty => none
  | .single _ => some .empty
  | .deep l s r =>
    if 1 < r.length then some (.deep l s r.dropLast)
    else if s.is_empty = false then
      match s.get_last, Tree.without_last s with
      | some nd, some s2 => some (.deep l s2 nd.children)
      | _, _ => none
    else if l.length = 1 then
      match l with
      | x :: _ => some (.single x)
      | [] => none
    else some (.deep l.dropLast s (l.drop (l.length - 1)))

/-- Building a tree from a sequence of already-typed elements by repeated
add_last; used internally by deep_left, deep_right and partition_with where
the source calls to_tree on digit remainders. -/
def to_treeE (xs : List (Elem α A)) : Tree α A :=
  xs.foldl (fun t e => Tree.add_last e t) .empty

/-- The public to_tree helper: an Empty tree extended by add_last for each
value of the sequence.  The measure parameter mirrors the source signature;
annotations being computed structurally, it does not influence the shape. -/
def to_tree (m : Measure α A) (xs : List α) : Tree α A :=
  xs.foldl (fun t v => Tree.add_last (.leaf v) t) .empty

/-- deep_left from the source: like building a Deep tree, except the left
digit may be an empty list, in which case a node is popped off the spine to
serve as the left digit, falling back to to_tree(right) when the spine is
empty too.  The final fallback is unreachable (a non-empty spine always
yields a first node). -/
def deep_left (ml : List (Elem α A)) (s : Tree α A) (r : List (Elem α A)) : Tree α A :=
  if ml.isEmpty then
    if s.is_empty then to_treeE r
    else
      match s.get_first, s.without_first with
      | some nd, some s2 => .deep nd.children s2 r
      | _, _ => .empty
  else .deep ml s r

/-- deep_right, the symmetric operation to deep_left. -/
def deep_right (l : List (Elem α A)) (s : Tree α A) (mr : List (Elem α A)) : Tree α A :=
  if mr.isEmpty then
    if s.is_empty then to_treeE l
    else
      match s.get_last, s.without_last with
      | some nd, some s2 => .deep l s2 nd.children
      | _, _ => .empty
  else .deep l s mr

/-- The packing loop of Deep._fold_up: repeatedly push nodes of 2 or 3
middle elements onto the spine, choosing 2 exactly when 2 or 4 elements
remain.  The fallbacks are unreachable: the first needs a list of length 2
or 4 with a single element (covered by the singleton pattern), the second a
remaining length of exactly 1, which the middle lengths 2 to 8 never reach. -/
def pack_nodes : Tree α A → List (Elem α A) → Tree α A
  | spine, [] => spine
  | spine, [_] => spine
  | spine, x :: y :: rest =>
    if (x :: y :: rest).length = 2 ∨ (x :: y :: rest).length = 4 then
      pack_nodes (Tree.add_last (.node2 x y) spine) rest
    else
      match rest with
      | z :: rest2 => pack_nodes (Tree.add_last (.node3 x y z) spine) rest2
      | [] => spine
termination_by _ items => items.length
decreasing_by all_goals simp_wf <;> omega

/-- Tree concatenation.  Empty and Single sides reduce to the other tree or
a single end insertion (via prepend in the source); two Deep trees keep the
outer digits and merge the two facing digits into the left spine with the
packing loop (Deep._fold_up), then append the right spine recursively. -/
def Tree.append : Tree α A → Tree α A → Tree α A
  | .empty, other => other
  | .single x, other => Tree.add_first x other
  | t, .empty => t
  | t, .single x => Tree.add_last x t
  | .deep l1 s1 r1, .deep l2 s2 r2 =>
      .deep l1 (Tree.append (pack_nodes s1 (r1 ++ l2)) s2) r2

/-- Digit.partition_digit: scan the elements accumulating the annotation and
split at the first position where the predicate becomes true, returning the
two raw halves. -/
def partition_digit (m : Measure α A) (p : A → Bool) :
    A → List (Elem α A) → List (Elem α A) × List (Elem α A)
  | _, [] => ([], [])
  | init, x :: xs =>
    let current := m.operator init (Elem.ann m x)
    if p current then ([], x :: xs)
    else
      let pr := partition_digit m p current xs
      (x :: pr.1, pr.2)

/-- partition_with, following the source: Empty splits to two Empty trees;
Single goes entirely to one side depending on the predicate; Deep tests the
accumulated left-digit and spine annotations to decide whether the split is
in the left digit, in the spine (where the straddling node popped from the
right spine half is split through an intermediate digit), or in the right
digit.  The fallback returning two Empty trees is unreachable: the right
spine half is never empty when the predicate became true on the spine. -/
def Tree.partition_with (m : Measure α A) (p : A → Bool) :
    Tree α A → A → Tree α A × Tree α A
  | .empty, _ => (.empty, .empty)
  | .single x, init =>
      if p (m.operator init (Elem.ann m x)) then (.empty, .single x)
      else (.single x, .empty)
  | .deep l s r, init =>
      let leftAnn := m.operator init (digitAnn m l)
      let spineAnn := m.operator leftAnn (Tree.ann m s)
      if p leftAnn then
        let pr := partition_digit m p init l
        (to_treeE pr.1, deep_left pr.2 s r)
      else if p spineAnn then
        let sp := Tree.partition_with m p s leftAnn
        match sp.2.get_first, sp.2.without_first with
        | some nd, some rs2 =>
          let dg := partition_digit m p (m.operator leftAnn (Tree.ann m sp.1)) nd.children
          (deep_right l sp.1 dg.1, deep_left dg.2 rs2 r)
        | _, _ => (.empty, .empty)
      else
        let pr := partition_digit m p spineAnn r
        (deep_right l s pr.1, to_treeE pr.2)

/-- Tree.partition: partition_with seeded with the measure identity. -/
def Tree.partition (m : Measure α A) (p : A → Bool) (t : Tree α A) :
    Tree α A × Tree α A :=
  Tree.partition_with m p t m.identity

/-- The generator value_iterator: repeatedly yield get_first and rebind to
without_first until the tree is empty.  The loop is driven by explicit fuel;
none models non-termination within the given fuel or a failing get_first. -/
def value_iterator : Nat → Tree α A → Option (List (Elem α A))
  | 0, t => if t.is_empty then some [] else none
  | n+1, t =>
    if t.is_empty then some []
    else
      match t.get_first, t.without_first with
      | some x, some t2 =>
        match value_iterator n t2 with
        | some rest => some (x :: rest)
        | none => none
      | _, _ => none

/-- MeasureItemCount: convert to 1, add, identity 0. -/
def MEASURE_ITEM_COUNT : Measure α Nat :=
  { convert := fun _ => 1, operator := Nat.add, identity := 0 }

/-- The Python values that flow through MeasureMinMax annotations: raw
scalar values produced by its convert, (min, max) pairs, the IDENTITY
sentinel supplied by MeasureWithIdentity, and a marker for the TypeError
raised when the operator unpacks anything that is not a pair. -/
inductive MMVal where
  | intv (n : Int)
  | pair (lo hi : Int)
  | ident
  | err
deriving DecidableEq, Repr

/-- MeasureMinMax.operator: unpack both arguments as (min, max) pairs and
combine them.  Because MeasureMinMax overrides operator rather than
semigroup_operator, the IDENTITY check of MeasureWithIdentity is bypassed,
and unpacking IDENTITY or a raw scalar raises a TypeError, modelled by err. -/
def mmOperator : MMVal → MMVal → MMVal
  | .pair a b, .pair c d => .pair (min a c) (max b d)
  | _, _ => .err

/-- MeasureMinMax: convert returns the value itself (not a pair), identity
is the IDENTITY sentinel inherited from MeasureWithIdentity. -/
def MeasureMinMax : Measure Int MMVal :=
  { convert := .intv, operator := mmOperator, identity := .ident }

/-- Trees reachable from Empty through the public operations, over any
measures and predicates. -/
inductive Reachable : Tree α A → Prop where
  | empty : Reachable .empty
  | add_first (v : α) {t : Tree α A} : Reachable t → Reachable (Tree.add_first (.leaf v) t)
  | add_last (v : α) {t : Tree α A} : Reachable t → Reachable (Tree.add_last (.leaf v) t)
  | without_first {t t2 : Tree α A} : Reachable t → Tree.without_first t = some t2 → Reachable t2
  | without_last {t t2 : Tree α A} : Reachable t → Tree.without_last t = some t2 → Reachable t2
  | append {t u : Tree α A} : Reachable t → Reachable u → Reachable (Tree.append t u)
  | to_tree (m : Measure α A) (xs : List α) : Reachable (to_tree m xs)
  | partition_fst (m : Measure α A) (p : A → Bool) (init : A) {t : Tree α A} :
      Reachable t → Reachable (Tree.partition_with m p t init).1
  | partition_snd (m : Measure α A) (p : A → Bool) (init : A) {t : Tree α A} :
      Reachable t → Reachable (Tree.partition_with m p t init).2

theorem Elem.children_flat (e : Elem α A) :
    (Elem.children e).flatMap Elem.toListE = e.toListE := by
  cases e <;> simp [Elem.children, Elem.toListE]

theorem flat_children (es : List (Elem α A)) :
    (es.flatMap Elem.children).flatMap Elem.toListE = es.flatMap Elem.toListE := by
  induction es with
  | nil => rfl
  | cons e es ih => simp [Elem.children_flat, ih]

theorem toList_eq_elems (t : Tree α A) :
    t.toList = t.elems.flatMap Elem.toListE := by
  induction t with
  | empty => rfl
  | single x => simp [Tree.toList, Tree.elems]
  | deep l s r ih => simp [Tree.toList, Tree.elems, ih, flat_children]

theorem toListE_ne_nil (e : Elem α A) : e.toListE ≠ [] := by
  induction e with
  | leaf v => simp [Elem.toListE]
  | node2 a b iha ihb => simp [Elem.toListE, iha]
  | node3 a b c iha ihb ihc => simp [Elem.toListE, iha]

theorem wf_deep_iff {d : Nat} {l r : List (Elem α A)} {s : Tree α A} :
    Tree.wf d (.deep l s r) = true ↔
      (1 ≤ l.length ∧ l.length ≤ 4 ∧ (∀ e ∈ l, Elem.depthOK d e = true) ∧
       Tree.wf (d+1) s = true ∧
       1 ≤ r.length ∧ r.length ≤ 4 ∧ (∀ e ∈ r, Elem.depthOK d e = true)) := by
  simp [Tree.wf, List.all_eq_true, and_assoc]

theorem list_len4 {l : List β} (h : l.length = 4) : ∃ a b c d, l = [a, b, c, d] := by
  cases l with
  | nil => simp at h
  | cons a l =>
    cases l with
    | nil => simp at h
    | cons b l =>
      cases l with
      | nil => simp at h
      | cons c l =>
        cases l with
        | nil => simp at h
        | cons d l =>
          cases l with
          | nil => exact ⟨a, b, c, d, rfl⟩
          | cons e l => simp at h

theorem add_first_elems {d : Nat} (e : Elem α A) (t : Tree α A)
    (ht : Tree.wf d t = true) :
    (Tree.add_first e t).elems = e :: t.elems := by
  induction t generalizing d e with
  | empty => rfl
  | single x => simp [Tree.add_first, Tree.elems]
  | deep l s r ih =>
    rw [wf_deep_iff] at ht
    by_cases h : l.length < 4
    · simp [Tree.add_first, h, Tree.elems]
    · have h4 : l.length = 4 := by omega
      obtain ⟨a, b, c, dd, rfl⟩ := list_len4 h4
      simp only [Tree.add_first, h, if_false]
      have hih := ih (Elem.node3 b c dd) ht.2.2.2.1
      simp [Tree.elems, hih, Elem.children]

theorem add_last_elems {d : Nat} (e : Elem α A) (t : Tree α A)
    (ht : Tree.wf d t = true) :
    (Tree.add_last e t).elems = t.elems ++ [e] := by
  induction t generalizing d e with
  | empty => rfl
  | single x => simp [Tree.add_last, Tree.elems]
  | deep l s r ih =>
    rw [wf_deep_iff] at ht
    by_cases h : r.length < 4
    · simp [Tree.add_last, h, Tree.elems]
    · have h4 : r.length = 4 := by omega
      obtain ⟨a, b, c, dd, rfl⟩ := list_len4 h4
      simp only [Tree.add_last, h, if_false]
      have hih := ih (Elem.node3 a b c) ht.2.2.2.1
      simp [Tree.elems, hih, Elem.children]

theorem add_first_wf {d : Nat} {e : Elem α A} {t : Tree α A}
    (he : Elem.depthOK d e = true) (ht : Tree.wf d t = true) :
    Tree.wf d (Tree.add_first e t) = true := by
  induction t generalizing d e with
  | empty => simpa [Tree.add_first, Tree.wf] using he
  | single x =>
    simp only [Tree.wf] at ht
    simp [Tree.add_first, wf_deep_iff, Tree.wf, he, ht]
  | deep l s r ih =>
    rw [wf_deep_iff] at ht
    obtain ⟨hl1, hl4, hld, hs, hr1, hr4, hrd⟩ := ht
    by_cases h : l.length < 4
    · simp only [Tree.add_first, h, if_true]
      rw [wf_deep_iff]
      refine ⟨by simp, by simp; omega, ?_, hs, hr1, hr4, hrd⟩
      intro x hx
      rcases List.mem_cons.1 hx with rfl | hx
      · exact he
      · exact hld x hx
    · have h4 : l.length = 4 := by omega
      obtain ⟨a, b, c, dd, rfl⟩ := list_len4 h4
      simp only [Tree.add_first, h, if_false]
      rw [wf_deep_iff]
      have hda : Elem.depthOK d a = true := hld a (by simp)
      have hnd : Elem.depthOK (d+1) (Elem.node3 b c dd) = true := by
        simp [Elem.depthOK, hld b (by simp), hld c (by simp), hld dd (by simp)]
      refine ⟨by simp, by simp, ?_, ih hnd hs, hr1, hr4, hrd⟩
      intro x hx
      rcases List.mem_cons.1 hx with rfl | hx
      · exact he
      · simp at hx; subst hx; exact hda
      
theorem add_last_wf {d : Nat} {e : Elem α A} {t : Tree α A}
    (he : Elem.depthOK d e = true) (ht : Tree.wf d t = true) :
    Tree.wf d (Tree.add_last e t) = true := by
  induction t generalizing d e with
  | empty => simpa [Tree.add_last, Tree.wf] using he
  | single x =>
    simp only [Tree.wf] at ht
    simp [Tree.add_last, wf_deep_iff, Tree.wf, he, ht]
  | deep l s r ih =>
    rw [wf_deep_iff] at ht
    obtain ⟨hl1, hl4, hld, hs, hr1, hr4, hrd⟩ := ht
    by_cases h : r.length < 4
    · simp only [Tree.add_last, h, if_true]
      rw [wf_deep_iff]
      refine ⟨hl1, hl4, hld, hs, by simp, by simp; omega, ?_⟩
      intro x hx
      rcases List.mem_append.1 hx with hx | hx
      · exact hrd x hx
      · simp at hx; subst hx; exact he
    · have h4 : r.length = 4 := by omega
      obtain ⟨a, b, c, dd, rfl⟩ := list_len4 h4
      simp only [Tree.add_last, h, if_false]
      rw [wf_deep_iff]
      have hdd : Elem.depthOK d dd = true := hrd dd (by simp)
      have hnd : Elem.depthOK (d+1) (Elem.node3 a b c) = true := by
        simp [Elem.depthOK, hrd a (by simp), hrd b (by simp), hrd c (by simp)]
      refine ⟨hl1, hl4, hld, ih hnd hs, by simp, by simp, ?_⟩
      intro x hx
      rcases List.mem_cons.1 hx with rfl | hx
      · exact hdd
      · simp at hx; subst hx; exact he

theorem foldl_add_last {d : Nat} (xs : List (Elem α A)) (t : Tree α A)
    (ht : Tree.wf d t = true) (hx : ∀ e ∈ xs, Elem.depthOK d e = true) :
    (xs.foldl (fun t e => Tree.add_last e t) t).elems = t.elems ++ xs ∧
    Tree.wf d (xs.foldl (fun t e => Tree.add_last e t) t) = true := by
  induction xs generalizing t with
  | nil => exact ⟨by simp, ht⟩
  | cons x xs ih =>
    have hx1 := hx x (by simp)
    have h2 := ih (Tree.add_last x t) (add_last_wf hx1 ht) (fun e he => hx e (by simp [he]))
    simp only [List.foldl_cons]
    refine ⟨?_, h2.2⟩
    rw [h2.1, add_last_elems _ _ ht]
    simp

theorem to_treeE_elems {d : Nat} (xs : List (Elem α A))
    (hx : ∀ e ∈ xs, Elem.depthOK d e = true) : (to_treeE xs).elems = xs := by
  have := (foldl_add_last xs .empty rfl hx).1
  simpa [to_treeE, Tree.elems] using this

theorem to_treeE_wf {d : Nat} (xs : List (Elem α A))
    (hx : ∀ e ∈ xs, Elem.depthOK d e = true) : Tree.wf d (to_treeE xs) = true :=
  (foldl_add_last xs .empty rfl hx).2

theorem to_treeE_toList {d : Nat} (xs : List (Elem α A))
    (hx : ∀ e ∈ xs, Elem.depthOK d e = true) :
    (to_treeE xs).toList = xs.flatMap Elem.toListE := by
  rw [toList_eq_elems, to_treeE_elems xs hx]

theorem to_tree_eq (m : Measure α A) (xs : List α) :
    to_tree m xs = to_treeE (xs.map Elem.leaf) := by
  simp [to_tree, to_treeE, List.foldl_map]

theorem leaf_depthOK (xs : List α) : ∀ e ∈ xs.map (Elem.leaf (A := A)), Elem.depthOK 0 e = true := by
  intro e he
  simp only [List.mem_map] at he
  obtain ⟨v, hv, rfl⟩ := he
  rfl

theorem to_tree_elems (m : Measure α A) (xs : List α) :
    (to_tree m xs).elems = xs.map Elem.leaf := by
  rw [to_tree_eq, to_treeE_elems (d := 0) _ (leaf_depthOK xs)]

theorem to_tree_wf (m : Measure α A) (xs : List α) :
    Tree.wf 0 (to_tree m xs) = true := by
  rw [to_tree_eq]
  exact to_treeE_wf _ (leaf_depthOK xs)

theorem to_tree_toList (m : Measure α A) (xs : List α) :
    (to_tree m xs).toList = xs := by
  rw [toList_eq_elems, to_tree_elems]
  induction xs with
  | nil => rfl
  | cons x xs ih => simp [Elem.toListE] at ih ⊢; exact ih

theorem is_empty_eq_true_iff {t : Tree α A} : t.is_empty = true ↔ t = .empty := by
  cases t <;> simp [Tree.is_empty]

theorem is_empty_eq_false_iff {t : Tree α A} : t.is_empty = false ↔ t ≠ .empty := by
  cases t <;> simp [Tree.is_empty]

theorem children_spec {d : Nat} {nd : Elem α A} (h : Elem.depthOK (d+1) nd = true) :
    (1 ≤ nd.children.length ∧ nd.children.length ≤ 4) ∧
      ∀ e ∈ nd.children, Elem.depthOK d e = true := by
  cases nd with
  | leaf v => simp [Elem.depthOK] at h
  | node2 a b =>
    simp only [Elem.depthOK, Bool.and_eq_true] at h
    refine ⟨by simp [Elem.children], ?_⟩
    intro e he
    simp only [Elem.children, List.mem_cons, List.mem_singleton] at he
    rcases he with rfl | he
    · exact h.1
    · simp at he; subst he; exact h.2
  | node3 a b c =>
    simp only [Elem.depthOK, Bool.and_eq_true] at h
    refine ⟨by simp [Elem.children], ?_⟩
    intro e he
    simp only [Elem.children, List.mem_cons, List.mem_singleton] at he
    rcases he with rfl | he
    · exact h.1.1
    · rcases he with rfl | he
      · exact h.1.2
      · simp at he; subst he; exact h.2

theorem elems_depthOK {d : Nat} {t : Tree α A} (ht : Tree.wf d t = true) :
    ∀ e ∈ t.elems, Elem.depthOK d e = true := by
  induction t generalizing d with
  | empty => intro e he; simp [Tree.elems] at he
  | single x =>
    intro e he
    simp only [Tree.elems, List.mem_singleton] at he
    subst he
    exact ht
  | deep l s r ih =>
    rw [wf_deep_iff] at ht
    obtain ⟨hl1, hl4, hld, hs, hr1, hr4, hrd⟩ := ht
    intro e he
    simp only [Tree.elems, List.mem_append] at he
    rcases he with (he | he) | he
    · exact hld e he
    · simp only [List.mem_flatMap] at he
      obtain ⟨nd, hnd, he⟩ := he
      exact (children_spec (ih hs nd hnd)).2 e he
    · exact hrd e he

theorem get_without_first {d : Nat} {t : Tree α A} (ht : Tree.wf d t = true)
    (hne : t.is_empty = false) :
    ∃ y t2, t.get_first = some y ∧ t.without_first = some t2 ∧
      t.elems = y :: t2.elems ∧ Tree.wf d t2 = true := by
  induction t generalizing d with
  | empty => simp [Tree.is_empty] at hne
  | single x =>
    refine ⟨x, .empty, rfl, rfl, ?_, rfl⟩
    rfl
  | deep l s r ih =>
    rw [wf_deep_iff] at ht
    obtain ⟨hl1, hl4, hld, hs, hr1, hr4, hrd⟩ := ht
    obtain ⟨a, l2, rfl⟩ : ∃ a l2, l = a :: l2 := by
      cases l with
      | nil => simp at hl1
      | cons a l2 => exact ⟨a, l2, rfl⟩
    by_cases h : 1 < (a :: l2).length
    · refine ⟨a, .deep l2 s r, by simp [Tree.get_first], ?_, by simp [Tree.elems], ?_⟩
      · simp only [Tree.without_first]
        rw [if_pos h]
        rfl
      · rw [wf_deep_iff]
        simp only [List.length_cons] at h hl4
        exact ⟨by omega, by omega, fun e he => hld e (by simp [he]), hs, hr1, hr4, hrd⟩
    · have hl2 : l2 = [] := by
        cases l2 with
        | nil => rfl
        | cons b l3 => simp at h
      subst hl2
      by_cases hse : s.is_empty = false
      · obtain ⟨nd, s2, hgf, hwf, hel, hw2⟩ := ih hs hse
        have hnd : Elem.depthOK (d+1) nd = true := by
          have hmem : nd ∈ s.elems := by rw [hel]; simp
          exact elems_depthOK hs nd hmem
        obtain ⟨hcl, hcd⟩ := children_spec hnd
        refine ⟨a, .deep nd.children s2 r, by simp [Tree.get_first], ?_, ?_, ?_⟩
        · simp [Tree.without_first, hse, hgf, hwf]
        · simp [Tree.elems, hel, Elem.children]
        · rw [wf_deep_iff]
          exact ⟨hcl.1, hcl.2, hcd, hw2, hr1, hr4, hrd⟩
      · have hsempty : s = .empty := by
          rw [← is_empty_eq_true_iff]
          revert hse
          cases s.is_empty <;> simp
        subst hsempty
        by_cases hr : r.length = 1
        · obtain ⟨x, rfl⟩ : ∃ x, r = [x] := by
            cases r with
            | nil => simp at hr
            | cons x r2 =>
              cases r2 with
              | nil => exact ⟨x, rfl⟩
              | cons y r3 => simp at hr
          refine ⟨a, .single x, by simp [Tree.get_first], ?_, ?_, ?_⟩
          · simp [Tree.without_first, Tree.is_empty, hr]
          · simp [Tree.elems]
          · simpa [Tree.wf] using hrd x (by simp)
        · refine ⟨a, .deep (r.take 1) .empty (r.drop 1), by simp [Tree.get_first], ?_, ?_, ?_⟩
          · simp [Tree.without_first, Tree.is_empty, hr]
          · simp only [Tree.elems, Tree.elems, List.flatMap_nil, List.nil_append,
              List.append_nil, List.cons_append, List.nil_append]
            rw [List.take_append_drop]
          · rw [wf_deep_iff]
            refine ⟨?_, ?_, ?_, rfl, ?_, ?_, ?_⟩
            · simp only [List.length_take]; omega
            · simp only [List.length_take]; omega
            · exact fun e he => hrd e (List.take_subset 1 r he)
            · simp only [List.length_drop]; omega
            · simp only [List.length_drop]; omega
            · exact fun e he => hrd e (List.drop_subset 1 r he)

theorem get_without_last {d : Nat} {t : Tree α A} (ht : Tree.wf d t = true)
    (hne : t.is_empty = false) :
    ∃ y t2, t.get_last = some y ∧ t.without_last = some t2 ∧
      t.elems = t2.elems ++ [y] ∧ Tree.wf d t2 = true := by
  induction t generalizing d with
  | empty => simp [Tree.is_empty] at hne
  | single x =>
    refine ⟨x, .empty, rfl, rfl, ?_, rfl⟩
    rfl
  | deep l s r ih =>
    rw [wf_deep_iff] at ht
    obtain ⟨hl1, hl4, hld, hs, hr1, hr4, hrd⟩ := ht
    rcases List.eq_nil_or_concat r with rfl | ⟨ys, y, rfl⟩
    · simp at hr1
    simp only [List.concat_eq_append] at hr1 hr4 hrd ⊢
    by_cases h : 1 < (ys ++ [y]).length
    · refine ⟨y, .deep l s ys, ?_, ?_, ?_, ?_⟩
      · simp [Tree.get_last]
      · simp only [Tree.without_last]
        rw [if_pos h, List.dropLast_concat]
      · simp [Tree.elems]
      · rw [wf_deep_iff]
        simp only [List.length_append, List.length_singleton] at h hr4
        refine ⟨hl1, hl4, hld, hs, by omega, by omega, ?_⟩
        exact fun e he => hrd e (by simp [he])
    · have hys : ys = [] := by
        rcases ys with _ | ⟨b, ys2⟩
        · rfl
        · simp at h
      subst hys
      simp only [List.nil_append] at *
      by_cases hse : s.is_empty = false
      · obtain ⟨nd, s2, hgl, hwl, hel, hw2⟩ := ih hs hse
        have hnd : Elem.depthOK (d+1) nd = true := by
          have hmem : nd ∈ s.elems := by rw [hel]; simp
          exact elems_depthOK hs nd hmem
        obtain ⟨hcl, hcd⟩ := children_spec hnd
        refine ⟨y, .deep l s2 nd.children, ?_, ?_, ?_, ?_⟩
        · simp [Tree.get_last]
        · simp [Tree.without_last, hse, hgl, hwl]
        · simp [Tree.elems, hel, Elem.children]
        · rw [wf_deep_iff]
          exact ⟨hl1, hl4, hld, hw2, hcl.1, hcl.2, hcd⟩
      · have hsempty : s = .empty := by
          rw [← is_empty_eq_true_iff]
          revert hse
          cases s.is_empty <;> simp
        subst hsempty
        by_cases hl : l.length = 1
        · obtain ⟨x, rfl⟩ : ∃ x, l = [x] := by
            rcases l with _ | ⟨x, _ | ⟨z, l3⟩⟩
            · simp at hl
            · exact ⟨x, rfl⟩
            · simp at hl
          refine ⟨y, .single x, ?_, ?_, ?_, ?_⟩
          · simp [Tree.get_last]
          · simp [Tree.without_last, Tree.is_empty, hl]
          · simp [Tree.elems]
          · simpa [Tree.wf] using hld x (by simp)
        · rcases List.eq_nil_or_concat l with rfl | ⟨zs, z, rfl⟩
          · simp at hl1
          simp only [List.concat_eq_append] at hl1 hl4 hld hl ⊢
          refine ⟨y, .deep (zs ++ [z]).dropLast .empty ((zs ++ [z]).drop ((zs ++ [z]).length - 1)), ?_, ?_, ?_, ?_⟩
          · simp [Tree.get_last]
          · simp only [Tree.without_last, Tree.is_empty, List.length_append,
              List.length_singleton, hl]
            rw [if_neg (by simpa using h), if_neg (by simp), if_neg (by simpa using hl)]
          · rw [List.dropLast_concat]
            have hdrop : (zs ++ [z]).drop ((zs ++ [z]).length - 1) = [z] := by
              simp only [List.length_append, List.length_singleton, Nat.add_sub_cancel]
              exact List.drop_left zs [z]
            rw [hdrop]
            simp [Tree.elems]
          · rw [wf_deep_iff, List.dropLast_concat]
            have hdrop : (zs ++ [z]).drop ((zs ++ [z]).length - 1) = [z] := by
              simp only [List.length_append, List.length_singleton, Nat.add_sub_cancel]
              exact List.drop_left zs [z]
            rw [hdrop]
            simp only [List.length_append, List.length_singleton] at hl hl4
            refine ⟨by omega, by omega, ?_, rfl, by simp, by simp, ?_⟩
            · exact fun e he => hld e (by simp [he])
            · intro w hw
              simp only [List.mem_singleton] at hw
              rcases hw with rfl
              exact hld _ (by simp)

theorem add_first_toList {d : Nat} (e : Elem α A) (t : Tree α A)
    (ht : Tree.wf d t = true) :
    (Tree.add_first e t).toList = e.toListE ++ t.toList := by
  rw [toList_eq_elems, add_first_elems e t ht, toList_eq_elems]
  simp

theorem add_last_toList {d : Nat} (e : Elem α A) (t : Tree α A)
    (ht : Tree.wf d t = true) :
    (Tree.add_last e t).toList = t.toList ++ e.toListE := by
  rw [toList_eq_elems, add_last_elems e t ht, toList_eq_elems]
  simp

theorem pack_nodes_spec {d : Nat} (spine : Tree α A) (items : List (Elem α A)) :
    Tree.wf (d+1) spine = true → (∀ e ∈ items, Elem.depthOK d e = true) →
    items.length ≠ 1 →
    Tree.wf (d+1) (pack_nodes spine items) = true ∧
    (pack_nodes spine items).toList = spine.toList ++ items.flatMap Elem.toListE := by
  induction spine, items using pack_nodes.induct with
  | case1 s =>
    intro hsp _ _
    simp only [pack_nodes]
    exact ⟨hsp, by simp⟩
  | case2 s x =>
    intro _ _ hlen
    exact absurd rfl hlen
  | case3 s x y rest hg ih =>
    intro hsp hit _
    have hnd : Elem.depthOK (d+1) (Elem.node2 x y) = true := by
      simp [Elem.depthOK, hit x (by simp), hit y (by simp)]
    have hlen : rest.length = 0 ∨ rest.length = 2 := by
      simp only [List.length_cons] at hg
      omega
    obtain ⟨hw, hl⟩ := ih (add_last_wf hnd hsp) (fun e he => hit e (by simp [he])) (by omega)
    have heq : pack_nodes s (x :: y :: rest) =
        pack_nodes (Tree.add_last (Elem.node2 x y) s) rest := by
      rcases hlen with h0 | h2
      · obtain rfl := List.length_eq_zero.1 h0
        simp [pack_nodes]
      · rcases rest with _ | ⟨z, rest⟩
        · simp at h2
        rcases rest with _ | ⟨w, rest⟩
        · simp at h2
        rcases rest with _ | ⟨u, rest⟩
        · simp [pack_nodes]
        · simp at h2
    rw [heq, hl, add_last_toList _ _ hsp]
    exact ⟨hw, by simp [Elem.toListE]⟩
  | case4 s x y z rest2 hg ih =>
    intro hsp hit _
    have hnd : Elem.depthOK (d+1) (Elem.node3 x y z) = true := by
      simp [Elem.depthOK, hit x (by simp), hit y (by simp), hit z (by simp)]
    have hr2 : rest2.length ≠ 1 := by
      simp only [List.length_cons, not_or] at hg
      omega
    obtain ⟨hw, hl⟩ := ih (add_last_wf hnd hsp) (fun e he => hit e (by simp [he])) hr2
    have heq : pack_nodes s (x :: y :: z :: rest2) =
        pack_nodes (Tree.add_last (Elem.node3 x y z) s) rest2 := by
      conv_lhs => rw [pack_nodes]
      rw [if_neg hg]
    rw [heq, hl, add_last_toList _ _ hsp]
    exact ⟨hw, by simp [Elem.toListE]⟩
  | case5 s x y hg =>
    simp at hg

theorem append_spec {d : Nat} (b a : Tree α A) :
    Tree.wf d a = true → Tree.wf d b = true →
    Tree.wf d (a.append b) = true ∧
    (a.append b).toList = a.toList ++ b.toList := by
  induction b generalizing a d with
  | empty =>
    intro ha _
    cases a with
    | empty => exact ⟨rfl, by simp [Tree.append, Tree.toList]⟩
    | single x => exact ⟨ha, by simp [Tree.append, Tree.add_first, Tree.toList]⟩
    | deep l s r => exact ⟨ha, by simp [Tree.append, Tree.toList]⟩
  | single y =>
    intro ha hb
    cases a with
    | empty => exact ⟨hb, by simp [Tree.append, Tree.toList]⟩
    | single x =>
      refine ⟨?_, ?_⟩
      · simp only [Tree.append]
        exact add_first_wf (by simpa [Tree.wf] using ha) hb
      · simp only [Tree.append]
        rw [add_first_toList (d := d) _ _ hb]
        simp [Tree.toList]
    | deep l s r =>
      refine ⟨?_, ?_⟩
      · simp only [Tree.append]
        exact add_last_wf (by simpa [Tree.wf] using hb) ha
      · simp only [Tree.append]
        rw [add_last_toList (d := d) _ _ ha]
        simp [Tree.toList]
  | deep l2 s2 r2 ih =>
    intro ha hb
    cases a with
    | empty => exact ⟨hb, by simp [Tree.append, Tree.toList]⟩
    | single x =>
      refine ⟨?_, ?_⟩
      · simp only [Tree.append]
        exact add_first_wf (by simpa [Tree.wf] using ha) hb
      · simp only [Tree.append]
        rw [add_first_toList (d := d) _ _ hb]
        simp [Tree.toList]
    | deep l1 s1 r1 =>
      rw [wf_deep_iff] at ha hb
      obtain ⟨ha1, ha4, had, has, ha1r, ha4r, hadr⟩ := ha
      obtain ⟨hb1, hb4, hbd, hbs, hb1r, hb4r, hbdr⟩ := hb
      have hmid : ∀ e ∈ r1 ++ l2, Elem.depthOK d e = true := by
        intro e he
        rcases List.mem_append.1 he with he | he
        · exact hadr e he
        · exact hbd e he
      have hmlen : (r1 ++ l2).length ≠ 1 := by
        simp only [List.length_append]
        omega
      obtain ⟨hpw, hpl⟩ := pack_nodes_spec s1 (r1 ++ l2) has hmid hmlen
      obtain ⟨hw, hl⟩ := ih (pack_nodes s1 (r1 ++ l2)) hpw hbs
      refine ⟨?_, ?_⟩
      · simp only [Tree.append]
        rw [wf_deep_iff]
        exact ⟨ha1, ha4, had, hw, hb1r, hb4r, hbdr⟩
      · simp only [Tree.append, Tree.toList]
        rw [hl, hpl]
        simp

/-- One scan step of partition_digit and of the digit annotation fold. -/
def annStep (m : Measure α A) (acc : A) (e : Elem α A) : A :=
  m.operator acc (Elem.ann m e)

/-- fold(operator, map(convert, vs), identity): the monoidal value of a
sequence of raw values. -/
def mfold (m : Measure α A) (vs : List α) : A :=
  (vs.map m.convert).foldl m.operator m.identity

theorem op_foldl_shift {m : Measure α A} (hm : m.Lawful) (vs : List α) :
    ∀ a : A, (vs.map m.convert).foldl m.operator a = m.operator a (mfold m vs) := by
  obtain ⟨hassoc, hidl, hidr⟩ := hm
  induction vs with
  | nil => intro a; simp [mfold, hidr]
  | cons v vs ih =>
    intro a
    simp only [mfold, List.map_cons, List.foldl_cons] at *
    rw [ih, ih (m.operator m.identity (m.convert v)), hidl, hassoc]

theorem mfold_append {m : Measure α A} (hm : m.Lawful) (vs ws : List α) :
    mfold m (vs ++ ws) = m.operator (mfold m vs) (mfold m ws) := by
  simp only [mfold, List.map_append, List.foldl_append]
  rw [← mfold, op_foldl_shift hm]
  rfl

theorem annE_eq {m : Measure α A} (hm : m.Lawful) (e : Elem α A) :
    Elem.ann m e = mfold m e.toListE := by
  induction e with
  | leaf v => simp [Elem.ann, Elem.toListE, mfold, hm.2.1]
  | node2 a b iha ihb =>
    simp only [Elem.ann, Elem.toListE, iha, ihb, mfold_append hm]
  | node3 a b c iha ihb ihc =>
    simp only [Elem.ann, Elem.toListE, iha, ihb, ihc, mfold_append hm]

theorem foldl_annStep_eq {m : Measure α A} (hm : m.Lawful) (es : List (Elem α A)) :
    ∀ a : A, es.foldl (annStep m) a = m.operator a (mfold m (es.flatMap Elem.toListE)) := by
  induction es with
  | nil => intro a; simp [mfold, hm.2.2]
  | cons e es ih =>
    intro a
    simp only [List.foldl_cons, List.flatMap_cons]
    rw [ih, mfold_append hm, annStep, annE_eq hm, hm.1]

theorem digitAnn_eq {m : Measure α A} (hm : m.Lawful) (es : List (Elem α A)) :
    digitAnn m es = mfold m (es.flatMap Elem.toListE) := by
  cases es with
  | nil => simp [digitAnn, mfold]
  | cons x xs =>
    have : digitAnn m (x :: xs) = xs.foldl (annStep m) (Elem.ann m x) := rfl
    rw [this, foldl_annStep_eq hm, annE_eq hm, List.flatMap_cons, mfold_append hm]

theorem ann_eq {m : Measure α A} (hm : m.Lawful) (t : Tree α A) :
    Tree.ann m t = mfold m t.toList := by
  induction t with
  | empty => simp [Tree.ann, Tree.toList, mfold]
  | single x => simp [Tree.ann, Tree.toList, annE_eq hm]
  | deep l s r ih =>
    simp only [Tree.ann, Tree.toList, ih, digitAnn_eq hm, mfold_append hm]

theorem partition_digit_split (m : Measure α A) (p : A → Bool) (d0 : List (Elem α A)) :
    ∀ init, (partition_digit m p init d0).1 ++ (partition_digit m p init d0).2 = d0 := by
  induction d0 with
  | nil => intro init; rfl
  | cons x xs ih =>
    intro init
    simp only [partition_digit]
    by_cases h : p (m.operator init (Elem.ann m x))
    · simp [h]
    · simp [h, ih]

theorem partition_digit_not_fired (m : Measure α A) (p : A → Bool) (d0 : List (Elem α A)) :
    ∀ init, p init = false →
      p ((partition_digit m p init d0).1.foldl (annStep m) init) = false := by
  induction d0 with
  | nil => intro init hp; simpa [partition_digit] using hp
  | cons x xs ih =>
    intro init hp
    simp only [partition_digit]
    by_cases h : p (m.operator init (Elem.ann m x))
    · simpa [h] using hp
    · have h2 := ih (m.operator init (Elem.ann m x)) (by simpa using h)
      simpa [h, annStep] using h2

theorem partition_digit_fires (m : Measure α A) (p : A → Bool) (d0 : List (Elem α A)) :
    ∀ init y ys, (partition_digit m p init d0).2 = y :: ys →
      p (m.operator ((partition_digit m p init d0).1.foldl (annStep m) init) (Elem.ann m y)) = true := by
  induction d0 with
  | nil => intro init y ys h; simp [partition_digit] at h
  | cons x xs ih =>
    intro init y ys h
    by_cases hx : p (m.operator init (Elem.ann m x))
    · simp only [partition_digit, if_pos hx] at h ⊢
      obtain ⟨rfl, rfl⟩ : x = y ∧ xs = ys := by
        simpa using h
      simpa using hx
    · simp only [partition_digit, if_neg hx] at h ⊢
      simpa [annStep] using ih (m.operator init (Elem.ann m x)) y ys h

theorem partition_digit_must_fire (m : Measure α A) (p : A → Bool) (d0 : List (Elem α A)) :
    ∀ init, p init = false → p (d0.foldl (annStep m) init) = true →
      (partition_digit m p init d0).2 ≠ [] := by
  induction d0 with
  | nil =>
    intro init hp hfire
    simp only [List.foldl_nil] at hfire
    rw [hp] at hfire
    exact absurd hfire (by simp)
  | cons x xs ih =>
    intro init hp hfire
    by_cases hx : p (m.operator init (Elem.ann m x))
    · simp [partition_digit, hx]
    · simp only [partition_digit, if_neg hx]
      simp only [List.foldl_cons, annStep] at hfire
      exact ih (m.operator init (Elem.ann m x)) (by simpa using hx) hfire

theorem to_treeE_not_empty {d : Nat} (r : List (Elem α A))
    (hrd : ∀ e ∈ r, Elem.depthOK d e = true) (h : r ≠ []) :
    (to_treeE r).is_empty = false := by
  have he := to_treeE_elems (d := d) r hrd
  rw [is_empty_eq_false_iff]
  intro hE
  rw [hE] at he
  exact h he.symm

theorem get_first_eq_head {d : Nat} {t : Tree α A} (ht : Tree.wf d t = true) :
    t.get_first = t.elems.head? := by
  cases t with
  | empty => rfl
  | single x => rfl
  | deep l s r =>
    rw [wf_deep_iff] at ht
    obtain ⟨a, l2, rfl⟩ : ∃ a l2, l = a :: l2 := by
      cases l with
      | nil => simp at ht
      | cons a l2 => exact ⟨a, l2, rfl⟩
    simp [Tree.get_first, Tree.elems]

theorem deep_left_spec {d : Nat} (ml : List (Elem α A)) (s : Tree α A) (r : List (Elem α A))
    (hmd : ∀ e ∈ ml, Elem.depthOK d e = true) (hm4 : ml.length ≤ 4)
    (hs : Tree.wf (d+1) s = true)
    (hr1 : 1 ≤ r.length) (hr4 : r.length ≤ 4) (hrd : ∀ e ∈ r, Elem.depthOK d e = true) :
    Tree.wf d (deep_left ml s r) = true ∧
    (deep_left ml s r).toList = ml.flatMap Elem.toListE ++ s.toList ++ r.flatMap Elem.toListE ∧
    (deep_left ml s r).is_empty = false := by
  rcases ml with _ | ⟨a, ml2⟩
  · by_cases hse : s.is_empty = true
    · have hsE : s = .empty := is_empty_eq_true_iff.1 hse
      subst hsE
      have hred : deep_left ([] : List (Elem α A)) .empty r = to_treeE r := by
        simp [deep_left, Tree.is_empty]
      rw [hred]
      refine ⟨to_treeE_wf r hrd, ?_, ?_⟩
      · simp [to_treeE_toList r hrd, Tree.toList]
      · exact to_treeE_not_empty r hrd (by intro h; subst h; simp at hr1)
    · have hse2 : s.is_empty = false := by revert hse; cases s.is_empty <;> simp
      obtain ⟨nd, s2, hgf, hwf, hel, hw2⟩ := get_without_first hs hse2
      have hnd : Elem.depthOK (d+1) nd = true :=
        elems_depthOK hs nd (by rw [hel]; simp)
      obtain ⟨hcl, hcd⟩ := children_spec hnd
      have hred : deep_left ([] : List (Elem α A)) s r = .deep nd.children s2 r := by
        simp [deep_left, hse2, hgf, hwf]
      rw [hred]
      refine ⟨?_, ?_, rfl⟩
      · rw [wf_deep_iff]
        exact ⟨hcl.1, hcl.2, hcd, hw2, hr1, hr4, hrd⟩
      · rw [toList_eq_elems s, hel]
        simp [Tree.toList, toList_eq_elems s2, Elem.children_flat]
  · have hred : deep_left (a :: ml2) s r = .deep (a :: ml2) s r := by
      simp [deep_left]
    rw [hred]
    refine ⟨?_, rfl, rfl⟩
    rw [wf_deep_iff]
    exact ⟨by simp, hm4, hmd, hs, hr1, hr4, hrd⟩

theorem deep_right_spec {d : Nat} (l : List (Elem α A)) (s : Tree α A) (mr : List (Elem α A))
    (hl1 : 1 ≤ l.length) (hl4 : l.length ≤ 4) (hld : ∀ e ∈ l, Elem.depthOK d e = true)
    (hs : Tree.wf (d+1) s = true)
    (hmd : ∀ e ∈ mr, Elem.depthOK d e = true) (hm4 : mr.length ≤ 4) :
    Tree.wf d (deep_right l s mr) = true ∧
    (deep_right l s mr).toList = l.flatMap Elem.toListE ++ s.toList ++ mr.flatMap Elem.toListE ∧
    (deep_right l s mr).is_empty = false := by
  rcases mr with _ | ⟨a, mr2⟩
  · by_cases hse : s.is_empty = true
    · have hsE : s = .empty := is_empty_eq_true_iff.1 hse
      subst hsE
      have hred : deep_right l .empty ([] : List (Elem α A)) = to_treeE l := by
        simp [deep_right, Tree.is_empty]
      rw [hred]
      refine ⟨to_treeE_wf l hld, ?_, ?_⟩
      · simp [to_treeE_toList l hld, Tree.toList]
      · exact to_treeE_not_empty l hld (by intro h; subst h; simp at hl1)
    · have hse2 : s.is_empty = false := by revert hse; cases s.is_empty <;> simp
      obtain ⟨nd, s2, hgl, hwl, hel, hw2⟩ := get_without_last hs hse2
      have hnd : Elem.depthOK (d+1) nd = true :=
        elems_depthOK hs nd (by rw [hel]; simp)
      obtain ⟨hcl, hcd⟩ := children_spec hnd
      have hred : deep_right l s ([] : List (Elem α A)) = .deep l s2 nd.children := by
        simp [deep_right, hse2, hgl, hwl]
      rw [hred]
      refine ⟨?_, ?_, rfl⟩
      · rw [wf_deep_iff]
        exact ⟨hl1, hl4, hld, hw2, hcl.1, hcl.2, hcd⟩
      · rw [toList_eq_elems s, hel]
        simp [Tree.toList, toList_eq_elems s2, Elem.children_flat]
  · have hred : deep_right l s (a :: mr2) = .deep l s (a :: mr2) := by
      simp [deep_right]
    rw [hred]
    refine ⟨?_, rfl, rfl⟩
    rw [wf_deep_iff]
    exact ⟨hl1, hl4, hld, hs, by simp, hm4, hmd⟩

theorem get_first_some_not_empty {t : Tree α A} {nd : Elem α A}
    (h : t.get_first = some nd) : t.is_empty = false := by
  cases t with
  | empty => simp [Tree.get_first] at h
  | single x => rfl
  | deep l s r => rfl

theorem partition_wf (m : Measure α A) (p : A → Bool) {d : Nat} (t : Tree α A) :
    ∀ init, Tree.wf d t = true →
    Tree.wf d (Tree.partition_with m p t init).1 = true ∧
    Tree.wf d (Tree.partition_with m p t init).2 = true := by
  induction t generalizing d with
  | empty => intro init _; exact ⟨rfl, rfl⟩
  | single x =>
    intro init ht
    simp only [Tree.wf] at ht
    by_cases h : p (m.operator init (Elem.ann m x)) = true
    · have hred : Tree.partition_with m p (.single x) init = (.empty, .single x) := by
        simp [Tree.partition_with, h]
      rw [hred]
      exact ⟨rfl, by simpa [Tree.wf] using ht⟩
    · have hred : Tree.partition_with m p (.single x) init = (.single x, .empty) := by
        simp [Tree.partition_with, h]
      rw [hred]
      exact ⟨by simpa [Tree.wf] using ht, rfl⟩
  | deep l s r ih =>
    intro init ht
    rw [wf_deep_iff] at ht
    obtain ⟨hl1, hl4, hld, hs, hr1, hr4, hrd⟩ := ht
    by_cases hpl : p (m.operator init (digitAnn m l)) = true
    · have hred : Tree.partition_with m p (.deep l s r) init =
          (to_treeE (partition_digit m p init l).1,
           deep_left (partition_digit m p init l).2 s r) := by
        simp only [Tree.partition_with]
        rw [if_pos hpl]
      rw [hred]
      have hsplit := partition_digit_split m p l init
      have hmem1 : ∀ e ∈ (partition_digit m p init l).1, Elem.depthOK d e = true := by
        intro e he
        exact hld e (by rw [← hsplit]; exact List.mem_append.2 (Or.inl he))
      have hmem2 : ∀ e ∈ (partition_digit m p init l).2, Elem.depthOK d e = true := by
        intro e he
        exact hld e (by rw [← hsplit]; exact List.mem_append.2 (Or.inr he))
      have hlen2 : (partition_digit m p init l).2.length ≤ 4 := by
        have h2 := congrArg List.length hsplit
        simp only [List.length_append] at h2
        omega
      exact ⟨to_treeE_wf _ hmem1,
        (deep_left_spec _ s r hmem2 hlen2 hs hr1 hr4 hrd).1⟩
    · by_cases hps : p (m.operator (m.operator init (digitAnn m l)) (Tree.ann m s)) = true
      · obtain ⟨hw1, hw2⟩ := ih (m.operator init (digitAnn m l)) hs
        rcases hgf : (Tree.partition_with m p s (m.operator init (digitAnn m l))).2.get_first with _ | nd
        · have hred : Tree.partition_with m p (.deep l s r) init = (.empty, .empty) := by
            simp only [Tree.partition_with]
            rw [if_neg hpl, if_pos hps, hgf]
          rw [hred]
          exact ⟨rfl, rfl⟩
        · have hne := get_first_some_not_empty hgf
          obtain ⟨y, t2, hy, hwt2, helm, hwf2⟩ := get_without_first hw2 hne
          have hnd : Elem.depthOK (d+1) y = true :=
            elems_depthOK hw2 y (by rw [helm]; simp)
          obtain ⟨hcl, hcd⟩ := children_spec hnd
          have hred : Tree.partition_with m p (.deep l s r) init =
              (deep_right l (Tree.partition_with m p s (m.operator init (digitAnn m l))).1
                (partition_digit m p
                  (m.operator (m.operator init (digitAnn m l))
                    (Tree.ann m (Tree.partition_with m p s (m.operator init (digitAnn m l))).1))
                  y.children).1,
               deep_left
                (partition_digit m p
                  (m.operator (m.operator init (digitAnn m l))
                    (Tree.ann m (Tree.partition_with m p s (m.operator init (digitAnn m l))).1))
                  y.children).2 t2 r) := by
            simp only [Tree.partition_with]
            rw [if_neg hpl, if_pos hps, hy, hwt2]
          rw [hred]
          have hsplit := partition_digit_split m p y.children
            (m.operator (m.operator init (digitAnn m l))
              (Tree.ann m (Tree.partition_with m p s (m.operator init (digitAnn m l))).1))
          have hmem1 : ∀ e ∈ (partition_digit m p
              (m.operator (m.operator init (digitAnn m l))
                (Tree.ann m (Tree.partition_with m p s (m.operator init (digitAnn m l))).1))
              y.children).1, Elem.depthOK d e = true := by
            intro e he
            exact hcd e (by rw [← hsplit]; exact List.mem_append.2 (Or.inl he))
          have hmem2 : ∀ e ∈ (partition_digit m p
              (m.operator (m.operator init (digitAnn m l))
                (Tree.ann m (Tree.partition_with m p s (m.operator init (digitAnn m l))).1))
              y.children).2, Elem.depthOK d e = true := by
            intro e he
            exact hcd e (by rw [← hsplit]; exact List.mem_append.2 (Or.inr he))
          have hlen12 : (partition_digit m p
              (m.operator (m.operator init (digitAnn m l))
                (Tree.ann m (Tree.partition_with m p s (m.operator init (digitAnn m l))).1))
              y.children).1.length ≤ 4 ∧
            (partition_digit m p
              (m.operator (m.operator init (digitAnn m l))
                (Tree.ann m (Tree.partition_with m p s (m.operator init (digitAnn m l))).1))
              y.children).2.length ≤ 4 := by
            have h2 := congrArg List.length hsplit
            simp only [List.length_append] at h2
            omega
          exact ⟨(deep_right_spec l _ _ hl1 hl4 hld hw1 hmem1 hlen12.1).1,
            (deep_left_spec _ t2 r hmem2 hlen12.2 hwf2 hr1 hr4 hrd).1⟩
      · have hred : Tree.partition_with m p (.deep l s r) init =
            (deep_right l s (partition_digit m p
              (m.operator (m.operator init (digitAnn m l)) (Tree.ann m s)) r).1,
             to_treeE (partition_digit m p
              (m.operator (m.operator init (digitAnn m l)) (Tree.ann m s)) r).2) := by
          simp only [Tree.partition_with]
          rw [if_neg hpl, if_neg hps]
        rw [hred]
        have hsplit := partition_digit_split m p r
          (m.operator (m.operator init (digitAnn m l)) (Tree.ann m s))
        have hmem1 : ∀ e ∈ (partition_digit m p
            (m.operator (m.operator init (digitAnn m l)) (Tree.ann m s)) r).1,
            Elem.depthOK d e = true := by
          intro e he
          exact hrd e (by rw [← hsplit]; exact List.mem_append.2 (Or.inl he))
        have hmem2 : ∀ e ∈ (partition_digit m p
            (m.operator (m.operator init (digitAnn m l)) (Tree.ann m s)) r).2,
            Elem.depthOK d e = true := by
          intro e he
          exact hrd e (by rw [← hsplit]; exact List.mem_append.2 (Or.inr he))
        have hlen1 : (partition_digit m p
            (m.operator (m.operator init (digitAnn m l)) (Tree.ann m s)) r).1.length ≤ 4 := by
          have h2 := congrArg List.length hsplit
          simp only [List.length_append] at h2
          omega
        exact ⟨(deep_right_spec l s _ hl1 hl4 hld hs hmem1 hlen1).1,
          to_treeE_wf _ hmem2⟩

theorem bool_ne_true {b : Bool} (h : ¬ b = true) : b = false := by
  cases b
  · rfl
  · exact absurd rfl h

theorem op_mfold_append3 {m : Measure α A} (hm : m.Lawful) (i : A) (xs ys zs : List α) :
    m.operator i (mfold m (xs ++ ys ++ zs)) =
    m.operator (m.operator (m.operator i (mfold m xs)) (mfold m ys)) (mfold m zs) := by
  rw [mfold_append hm, mfold_append hm]
  simp only [hm.1]

theorem to_treeE_get_first {d : Nat} (xs : List (Elem α A))
    (hx : ∀ e ∈ xs, Elem.depthOK d e = true) :
    (to_treeE xs).get_first = xs.head? := by
  rw [get_first_eq_head (to_treeE_wf xs hx), to_treeE_elems xs hx]

theorem partition_master {m : Measure α A} {p : A → Bool} (hm : m.Lawful) {d : Nat}
    (t : Tree α A) :
    ∀ init, Tree.wf d t = true →
    ((Tree.partition_with m p t init).1.toList ++ (Tree.partition_with m p t init).2.toList
        = t.toList) ∧
    (p init = false → p (m.operator init (Tree.ann m t)) = true →
        (Tree.partition_with m p t init).2.is_empty = false) ∧
    (p init = false →
        p (m.operator init (Tree.ann m (Tree.partition_with m p t init).1)) = false) ∧
    (p init = false → ∀ y, (Tree.partition_with m p t init).2.get_first = some y →
        p (m.operator (m.operator init (Tree.ann m (Tree.partition_with m p t init).1))
            (Elem.ann m y)) = true) := by
  induction t generalizing d with
  | empty =>
    intro init _
    refine ⟨rfl, ?_, ?_, ?_⟩
    · intro hp hfire
      rw [Tree.ann, hm.2.2] at hfire
      rw [hp] at hfire
      exact absurd hfire (by simp)
    · intro hp
      simpa [Tree.partition_with, Tree.ann, hm.2.2] using hp
    · intro _ y hy
      simp [Tree.partition_with, Tree.get_first] at hy
  | single x =>
    intro init ht
    by_cases h : p (m.operator init (Elem.ann m x)) = true
    · have hred : Tree.partition_with m p (.single x) init = (.empty, .single x) := by
        simp [Tree.partition_with, h]
      rw [hred]
      refine ⟨by simp [Tree.toList], fun _ _ => rfl, ?_, ?_⟩
      · intro hp
        simpa [Tree.ann, hm.2.2] using hp
      · intro hp y hy
        obtain rfl : x = y := by simpa [Tree.get_first] using hy
        simpa [Tree.ann, hm.2.2] using h
    · have hred : Tree.partition_with m p (.single x) init = (.single x, .empty) := by
        simp [Tree.partition_with, h]
      rw [hred]
      refine ⟨by simp [Tree.toList], ?_, ?_, ?_⟩
      · intro hp hfire
        exact absurd hfire h
      · intro hp
        exact bool_ne_true h
      · intro _ y hy
        simp [Tree.get_first] at hy
  | deep l s r ih =>
    intro init ht
    rw [wf_deep_iff] at ht
    obtain ⟨hl1, hl4, hld, hs, hr1, hr4, hrd⟩ := ht
    have hflat : ∀ u v : List (Elem α A), (u ++ v).flatMap Elem.toListE =
        u.flatMap Elem.toListE ++ v.flatMap Elem.toListE := by
      intro u v
      simp
    by_cases hpl : p (m.operator init (digitAnn m l)) = true
    · -- split inside the left digit
      have hred : Tree.partition_with m p (.deep l s r) init =
          (to_treeE (partition_digit m p init l).1,
           deep_left (partition_digit m p init l).2 s r) := by
        simp only [Tree.partition_with]
        rw [if_pos hpl]
      rw [hred]
      have hsplit := partition_digit_split m p l init
      have hmem1 : ∀ e ∈ (partition_digit m p init l).1, Elem.depthOK d e = true := by
        intro e he
        exact hld e (by rw [← hsplit]; exact List.mem_append.2 (Or.inl he))
      have hmem2 : ∀ e ∈ (partition_digit m p init l).2, Elem.depthOK d e = true := by
        intro e he
        exact hld e (by rw [← hsplit]; exact List.mem_append.2 (Or.inr he))
      have hlen2 : (partition_digit m p init l).2.length ≤ 4 := by
        have h2 := congrArg List.length hsplit
        simp only [List.length_append] at h2
        omega
      obtain ⟨dlw, dll, dlne⟩ := deep_left_spec _ s r hmem2 hlen2 hs hr1 hr4 hrd
      have ht1 := to_treeE_toList _ hmem1
      have hfl : (partition_digit m p init l).1.flatMap Elem.toListE ++
          (partition_digit m p init l).2.flatMap Elem.toListE = l.flatMap Elem.toListE := by
        rw [← hflat, hsplit]
      have hann1 : m.operator init (Tree.ann m (to_treeE (partition_digit m p init l).1)) =
          (partition_digit m p init l).1.foldl (annStep m) init := by
        rw [ann_eq hm, ht1, foldl_annStep_eq hm]
      refine ⟨?_, fun _ _ => dlne, ?_, ?_⟩
      · rw [ht1, dll, Tree.toList]
        rw [← List.append_assoc, ← List.append_assoc, hfl]
      · intro hp
        rw [hann1]
        exact partition_digit_not_fired m p l init hp
      · intro hp y hy
        have hfire : p (l.foldl (annStep m) init) = true := by
          rw [foldl_annStep_eq hm, ← digitAnn_eq hm]
          exact hpl
        have hpd2 := partition_digit_must_fire m p l init hp hfire
        obtain ⟨z, zs, hz⟩ : ∃ z zs, (partition_digit m p init l).2 = z :: zs := by
          rcases hzz : (partition_digit m p init l).2 with _ | ⟨z, zs⟩
          · exact absurd hzz hpd2
          · exact ⟨z, zs, rfl⟩
        have hzy : z = y := by
          have heq2 : deep_left (partition_digit m p init l).2 s r =
              .deep (z :: zs) s r := by
            rw [hz]
            simp [deep_left]
          rw [heq2] at hy
          simpa [Tree.get_first] using hy
        rw [hann1]
        exact hzy ▸ partition_digit_fires m p l init z zs hz
    · have hplf : p (m.operator init (digitAnn m l)) = false := bool_ne_true hpl
      by_cases hps : p (m.operator (m.operator init (digitAnn m l)) (Tree.ann m s)) = true
      · -- split inside the spine
        obtain ⟨pw1, pw2⟩ := partition_wf m p s (m.operator init (digitAnn m l)) hs
        obtain ⟨ia, ic, ie, ifi⟩ := ih (m.operator init (digitAnn m l)) hs
        have hne : (Tree.partition_with m p s (m.operator init (digitAnn m l))).2.is_empty
            = false := ic hplf hps
        obtain ⟨y, t2, hy, hwt2, helm, hwf2⟩ := get_without_first pw2 hne
        have hnd : Elem.depthOK (d+1) y = true :=
          elems_depthOK pw2 y (by rw [helm]; simp)
        obtain ⟨hcl, hcd⟩ := children_spec hnd
        have hred : Tree.partition_with m p (.deep l s r) init =
            (deep_right l (Tree.partition_with m p s (m.operator init (digitAnn m l))).1
              (partition_digit m p
                (m.operator (m.operator init (digitAnn m l))
                  (Tree.ann m (Tree.partition_with m p s (m.operator init (digitAnn m l))).1))
                y.children).1,
             deep_left
              (partition_digit m p
                (m.operator (m.operator init (digitAnn m l))
                  (Tree.ann m (Tree.partition_with m p s (m.operator init (digitAnn m l))).1))
                y.children).2 t2 r) := by
          simp only [Tree.partition_with]
          rw [if_neg hpl, if_pos hps, hy, hwt2]
        rw [hred]
        set sp1 := (Tree.partition_with m p s (m.operator init (digitAnn m l))).1 with hsp1
        set seed := m.operator (m.operator init (digitAnn m l)) (Tree.ann m sp1) with hseed
        have hsplit := partition_digit_split m p y.children seed
        have hmem1 : ∀ e ∈ (partition_digit m p seed y.children).1,
            Elem.depthOK d e = true := by
          intro e he
          exact hcd e (by rw [← hsplit]; exact List.mem_append.2 (Or.inl he))
        have hmem2 : ∀ e ∈ (partition_digit m p seed y.children).2,
            Elem.depthOK d e = true := by
          intro e he
          exact hcd e (by rw [← hsplit]; exact List.mem_append.2 (Or.inr he))
        have hlen12 : (partition_digit m p seed y.children).1.length ≤ 4 ∧
            (partition_digit m p seed y.children).2.length ≤ 4 := by
          have h2 := congrArg List.length hsplit
          simp only [List.length_append] at h2
          omega
        obtain ⟨drw, drl, drne⟩ := deep_right_spec l sp1 _ hl1 hl4 hld pw1 hmem1 hlen12.1
        obtain ⟨dlw, dll, dlne⟩ := deep_left_spec _ t2 r hmem2 hlen12.2 hwf2 hr1 hr4 hrd
        have hsp2list : (Tree.partition_with m p s (m.operator init (digitAnn m l))).2.toList
            = y.toListE ++ t2.toList := by
          rw [toList_eq_elems, helm, toList_eq_elems t2]
          simp
        have hfl : (partition_digit m p seed y.children).1.flatMap Elem.toListE ++
            (partition_digit m p seed y.children).2.flatMap Elem.toListE = y.toListE := by
          rw [← hflat, hsplit, Elem.children_flat]
        -- the accumulated annotation of the left result, in scan form
        have hannL : m.operator init (Tree.ann m (deep_right l sp1
            (partition_digit m p seed y.children).1)) =
            (partition_digit m p seed y.children).1.foldl (annStep m) seed := by
          rw [ann_eq hm, drl, op_mfold_append3 hm, ← ann_eq hm, ← digitAnn_eq hm,
            ← hseed, foldl_annStep_eq hm]
        have hseedf : p seed = false := ie hplf
        refine ⟨?_, fun _ _ => dlne, ?_, ?_⟩
        · rw [drl, dll, Tree.toList]
          calc (l.flatMap Elem.toListE ++ sp1.toList ++
                (partition_digit m p seed y.children).1.flatMap Elem.toListE) ++
              ((partition_digit m p seed y.children).2.flatMap Elem.toListE ++
                t2.toList ++ r.flatMap Elem.toListE)
              = l.flatMap Elem.toListE ++ (sp1.toList ++ (y.toListE ++ t2.toList)) ++
                r.flatMap Elem.toListE := by
                rw [← hfl]
                simp [List.append_assoc]
            _ = l.flatMap Elem.toListE ++ s.toList ++ r.flatMap Elem.toListE := by
                rw [← hsp2list, ia]
        · intro hp
          rw [hannL]
          exact partition_digit_not_fired m p y.children seed hseedf
        · intro hp z hz
          have hfire : p (y.children.foldl (annStep m) seed) = true := by
            rw [foldl_annStep_eq hm, Elem.children_flat y, ← annE_eq hm]
            exact ifi hplf y hy
          have hpd2 := partition_digit_must_fire m p y.children seed hseedf hfire
          obtain ⟨z0, zs, hz0⟩ : ∃ z0 zs, (partition_digit m p seed y.children).2
              = z0 :: zs := by
            rcases hzz : (partition_digit m p seed y.children).2 with _ | ⟨z0, zs⟩
            · exact absurd hzz hpd2
            · exact ⟨z0, zs, rfl⟩
          have hz0z : z0 = z := by
            have heq2 : deep_left (partition_digit m p seed y.children).2 t2 r =
                .deep (z0 :: zs) t2 r := by
              rw [hz0]
              simp [deep_left]
            rw [heq2] at hz
            simpa [Tree.get_first] using hz
          rw [hannL]
          exact hz0z ▸ partition_digit_fires m p y.children seed z0 zs hz0
      · -- split inside the right digit
        have hpsf : p (m.operator (m.operator init (digitAnn m l)) (Tree.ann m s)) = false :=
          bool_ne_true hps
        have hred : Tree.partition_with m p (.deep l s r) init =
            (deep_right l s (partition_digit m p
              (m.operator (m.operator init (digitAnn m l)) (Tree.ann m s)) r).1,
             to_treeE (partition_digit m p
              (m.operator (m.operator init (digitAnn m l)) (Tree.ann m s)) r).2) := by
          simp only [Tree.partition_with]
          rw [if_neg hpl, if_neg hps]
        rw [hred]
        set sa := m.operator (m.operator init (digitAnn m l)) (Tree.ann m s) with hsa
        have hsplit := partition_digit_split m p r sa
        have hmem1 : ∀ e ∈ (partition_digit m p sa r).1, Elem.depthOK d e = true := by
          intro e he
          exact hrd e (by rw [← hsplit]; exact List.mem_append.2 (Or.inl he))
        have hmem2 : ∀ e ∈ (partition_digit m p sa r).2, Elem.depthOK d e = true := by
          intro e he
          exact hrd e (by rw [← hsplit]; exact List.mem_append.2 (Or.inr he))
        have hlen1 : (partition_digit m p sa r).1.length ≤ 4 := by
          have h2 := congrArg List.length hsplit
          simp only [List.length_append] at h2
          omega
        obtain ⟨drw, drl, drne⟩ := deep_right_spec l s _ hl1 hl4 hld hs hmem1 hlen1
        have ht2 := to_treeE_toList _ hmem2
        have hfl : (partition_digit m p sa r).1.flatMap Elem.toListE ++
            (partition_digit m p sa r).2.flatMap Elem.toListE = r.flatMap Elem.toListE := by
          rw [← hflat, hsplit]
        have hannL : m.operator init (Tree.ann m (deep_right l s (partition_digit m p sa r).1))
            = (partition_digit m p sa r).1.foldl (annStep m) sa := by
          rw [ann_eq hm, drl, op_mfold_append3 hm, ← ann_eq hm, ← digitAnn_eq hm,
            ← hsa, foldl_annStep_eq hm]
        have hwhole : m.operator init (Tree.ann m (.deep l s r)) =
            r.foldl (annStep m) sa := by
          rw [Tree.ann, foldl_annStep_eq hm, ← digitAnn_eq hm, hsa]
          simp only [hm.1]
        refine ⟨?_, ?_, ?_, ?_⟩
        · rw [drl, ht2, Tree.toList]
          rw [List.append_assoc _ _ ((partition_digit m p sa r).2.flatMap Elem.toListE), hfl]
        · intro hp hfire
          rw [hwhole] at hfire
          have hpd2 := partition_digit_must_fire m p r sa hpsf hfire
          exact to_treeE_not_empty _ hmem2 hpd2
        · intro hp
          rw [hannL]
          exact partition_digit_not_fired m p r sa hpsf
        · intro hp z hz
          rw [to_treeE_get_first _ hmem2] at hz
          obtain ⟨zs, hz0⟩ : ∃ zs, (partition_digit m p sa r).2 = z :: zs := by
            rcases hzz : (partition_digit m p sa r).2 with _ | ⟨z0, zs⟩
            · rw [hzz] at hz
              simp at hz
            · rw [hzz] at hz
              simp only [List.head?_cons, Option.some_inj] at hz
              exact ⟨zs, by rw [hz]⟩
          have := partition_digit_fires m p r sa z zs hz0
          rw [hannL]
          exact this

theorem elems_nil_iff {d : Nat} {t : Tree α A} (ht : Tree.wf d t = true) :
    t.elems = [] ↔ t = .empty := by
  cases t with
  | empty => simp [Tree.elems]
  | single x => simp [Tree.elems]
  | deep l s r =>
    rw [wf_deep_iff] at ht
    obtain ⟨a, l2, rfl⟩ : ∃ a l2, l = a :: l2 := by
      cases l with
      | nil => simp at ht
      | cons a l2 => exact ⟨a, l2, rfl⟩
    simp [Tree.elems]

theorem value_iterator_spec {d : Nat} (n : Nat) :
    ∀ (t : Tree α A), Tree.wf d t = true → t.elems.length ≤ n →
      value_iterator n t = some t.elems := by
  induction n with
  | zero =>
    intro t ht hlen
    have hnil : t.elems = [] := by
      cases hE : t.elems with
      | nil => rfl
      | cons a l => rw [hE] at hlen; simp at hlen
    have hE : t = .empty := (elems_nil_iff ht).1 hnil
    subst hE
    rfl
  | succ n ih =>
    intro t ht hlen
    by_cases he : t.is_empty = true
    · have hE : t = .empty := is_empty_eq_true_iff.1 he
      subst hE
      rfl
    · have hne : t.is_empty = false := bool_ne_true he
      obtain ⟨y, t2, hgf, hwf, hel, hw2⟩ := get_without_first ht hne
      have hlen2 : t2.elems.length ≤ n := by
        rw [hel] at hlen
        simpa using hlen
      have hrec := ih t2 hw2 hlen2
      simp only [value_iterator, hne, Bool.false_eq_true, if_false, hgf, hwf, hrec, hel]

theorem reachable_wf {t : Tree α A} (h : Reachable t) : Tree.wf 0 t = true := by
  induction h with
  | empty => rfl
  | add_first v h ih => exact add_first_wf rfl ih
  | add_last v h ih => exact add_last_wf rfl ih
  | @without_first t0 t2 h heq ih =>
    have hne : t0.is_empty = false := by
      rw [is_empty_eq_false_iff]
      intro hE
      subst hE
      simp [Tree.without_first] at heq
    obtain ⟨y, t2x, hgf, hwf, hel, hw2⟩ := get_without_first ih hne
    rw [heq] at hwf
    obtain rfl := Option.some_inj.1 hwf
    exact hw2
  | @without_last t0 t2 h heq ih =>
    have hne : t0.is_empty = false := by
      rw [is_empty_eq_false_iff]
      intro hE
      subst hE
      simp [Tree.without_last] at heq
    obtain ⟨y, t2x, hgl, hwl, hel, hw2⟩ := get_without_last ih hne
    rw [heq] at hwl
    obtain rfl := Option.some_inj.1 hwl
    exact hw2
  | append h1 h2 ih1 ih2 => exact (append_spec _ _ ih1 ih2).1
  | to_tree m xs => exact to_tree_wf m xs
  | partition_fst m p init h ih => exact (partition_wf m p _ init ih).1
  | partition_snd m p init h ih => exact (partition_wf m p _ init ih).2

theorem cm_lawful : Measure.Lawful (MEASURE_ITEM_COUNT : Measure α Nat) :=
  ⟨Nat.add_assoc, Nat.zero_add, Nat.add_zero⟩

theorem cm_mfold (vs : List α) : mfold (MEASURE_ITEM_COUNT : Measure α Nat) vs = vs.length := by
  have hgen : ∀ (l : List α) (a : Nat),
      (l.map (fun _ => (1 : Nat))).foldl Nat.add a = a + l.length := by
    intro l
    induction l with
    | nil => intro a; simp
    | cons x l ih =>
      intro a
      simp only [List.map_cons, List.foldl_cons, List.length_cons, Nat.add_eq, ih]
      omega
  simpa [mfold, MEASURE_ITEM_COUNT] using hgen vs 0

theorem cm_ann_len (t : Tree α Nat) :
    Tree.ann (MEASURE_ITEM_COUNT : Measure α Nat) t = t.toList.length := by
  rw [ann_eq cm_lawful, cm_mfold]

/-- C1: for every well-formed tree over a measure satisfying the monoid laws,
the cached annotation equals the monoidal fold of convert over the traversal,
t.ann == fold(operator, map(convert, traverse(t)), identity).  All
operations build trees that stay well formed (see C9), so the property is
preserved by add_first, add_last, without_first, without_last, append,
partition_with and to_tree. -/
theorem C1_ann_coherence {m : Measure α A} (hm : m.Lawful) (t : Tree α A)
    (ht : Tree.wf 0 t = true) :
    Tree.ann m t = ((t.toList).map m.convert).foldl m.operator m.identity := by
  rw [ann_eq hm]
  rfl

theorem C1_witness :
    Measure.Lawful (MEASURE_ITEM_COUNT : Measure Nat Nat) ∧
    Tree.wf 0 (to_tree (MEASURE_ITEM_COUNT : Measure Nat Nat) [7, 8, 9]) = true ∧
    Tree.ann (MEASURE_ITEM_COUNT : Measure Nat Nat)
        (to_tree (MEASURE_ITEM_COUNT : Measure Nat Nat) [7, 8, 9]) =
      (((to_tree (MEASURE_ITEM_COUNT : Measure Nat Nat) [7, 8, 9]).toList).map
          (MEASURE_ITEM_COUNT : Measure Nat Nat).convert).foldl
        (MEASURE_ITEM_COUNT : Measure Nat Nat).operator
        (MEASURE_ITEM_COUNT : Measure Nat Nat).identity :=
  ⟨cm_lawful, by decide, C1_ann_coherence cm_lawful _ (by decide)⟩

/-- C2: for every finite sequence xs, the sequence produced by
value_iterator on to_tree(MEASURE_ITEM_COUNT, xs) is exactly the elements
of xs in order (as the top-level leaf elements), and the traversal of the
built tree is xs itself. -/
theorem C2_to_tree_round_trip (xs : List α) :
    value_iterator xs.length (to_tree (MEASURE_ITEM_COUNT : Measure α Nat) xs)
      = some (xs.map Elem.leaf) ∧
    (to_tree (MEASURE_ITEM_COUNT : Measure α Nat) xs).toList = xs := by
  constructor
  · have h := value_iterator_spec (d := 0) xs.length
      (to_tree (MEASURE_ITEM_COUNT : Measure α Nat) xs)
      (to_tree_wf _ xs) (by rw [to_tree_elems]; simp)
    rw [h, to_tree_elems]
  · exact to_tree_toList _ xs

/-- C3: for all well-formed trees a and b over a measure satisfying the
monoid laws, the traversal of a.append(b) is the traversal of a followed by
the traversal of b, for every combination of Empty, Single and Deep shapes.
The end operations never consult the measure, so the monoid hypothesis is
not even needed for this property. -/
theorem C3_append_toList {m : Measure α A} (hm : m.Lawful) (a b : Tree α A)
    (ha : Tree.wf 0 a = true) (hb : Tree.wf 0 b = true) :
    (a.append b).toList = a.toList ++ b.toList :=
  (append_spec b a ha hb).2

theorem C3_witness :
    ((to_tree (MEASURE_ITEM_COUNT : Measure Nat Nat) [1, 2]).append
        (to_tree (MEASURE_ITEM_COUNT : Measure Nat Nat) [3, 4, 5])).toList =
      (to_tree (MEASURE_ITEM_COUNT : Measure Nat Nat) [1, 2]).toList ++
        (to_tree (MEASURE_ITEM_COUNT : Measure Nat Nat) [3, 4, 5]).toList :=
  C3_append_toList cm_lawful _ _ (by decide) (by decide)

/-- C8: evaluating the code at the failing input.  MeasureMinMax overrides
operator (bypassing the IDENTITY check of MeasureWithIdentity, whose
docstring forbids overriding operator) and its convert returns the bare
value, while operator unpacks its arguments as (min, max) pairs.  Computing
the annotation of to_tree(MeasureMinMax(), [5, 1, 9, 2]) therefore raises a
TypeError (modelled by MMVal.err) instead of producing the pair (1, 9); the
same happens for the tree built with add_first. -/
theorem C8_minmax_type_error :
    Tree.ann MeasureMinMax (to_tree MeasureMinMax [5, 1, 9, 2]) = MMVal.err ∧
    Tree.ann MeasureMinMax
      (Tree.add_first (.leaf 5) (Tree.add_first (.leaf 1)
        (Tree.add_first (.leaf 9) (Tree.add_first (.leaf 2) .empty)))) = MMVal.err ∧
    MMVal.err ≠ MMVal.pair 1 9 := by
  refine ⟨by decide, by decide, by decide⟩

/-- C9: every tree reachable from Empty by the public operations (over any
measure, predicate and seed) is well formed at depth 0: every digit it
contains has 1 to 4 elements (the arity checked by the Digit constructor)
and every spine element is a node of exactly 2 or 3 children of the right
depth (the arity checked by the Node constructor, built into the Elem
type), so the arity-check error branches are unreachable through the
public API. -/
theorem C9_reachable_wf {t : Tree α A} (h : Reachable t) : Tree.wf 0 t = true :=
  reachable_wf h

theorem C9_witness :
    Tree.wf 0 (to_tree (MEASURE_ITEM_COUNT : Measure Nat Nat) [1, 2, 3, 4, 5]) = true :=
  C9_reachable_wf (Reachable.to_tree _ _)

/-- C10: for a well-formed tree over a measure satisfying the monoid laws,
whenever the predicate is false on the seed but true once the whole
annotation of the tree is folded in (exactly the situation of the spine
branch of Deep.partition_with), the right half of the partition is
non-empty, so the get_first and without_first calls on it cannot raise
TreeIsEmpty.  The predicate is arbitrary: no monotonicity is assumed. -/
theorem C10_partition_no_raise {m : Measure α A} {p : A → Bool} (hm : m.Lawful)
    {d : Nat} (t : Tree α A) (init : A) (ht : Tree.wf d t = true)
    (hp : p init = false) (hfire : p (m.operator init (Tree.ann m t)) = true) :
    ∃ nd t2, (Tree.partition_with m p t init).2.get_first = some nd ∧
      (Tree.partition_with m p t init).2.without_first = some t2 := by
  have hne := (partition_master hm t init ht).2.1 hp hfire
  have hwf2 := (partition_wf m p t init ht).2
  obtain ⟨y, t2, hy, hw, _, _⟩ := get_without_first hwf2 hne
  exact ⟨y, t2, hy, hw⟩

theorem C10_witness :
    ∃ nd t2, (Tree.partition_with (MEASURE_ITEM_COUNT : Measure Nat Nat)
        (fun c => decide (1 < c)) (to_tree MEASURE_ITEM_COUNT [1, 2, 3]) 0).2.get_first
          = some nd ∧
      (Tree.partition_with (MEASURE_ITEM_COUNT : Measure Nat Nat)
        (fun c => decide (1 < c)) (to_tree MEASURE_ITEM_COUNT [1, 2, 3]) 0).2.without_first
          = some t2 :=
  C10_partition_no_raise (d := 0) cm_lawful _ 0 (by decide) (by decide) (by decide)

/-- C5: for every well-formed tree over a measure satisfying the monoid
laws and every element e, adding e at the front and reading the front gives
back e, and removing the front after adding e restores the original
traversal; symmetrically at the back.  The end operations never consult the
measure, so the monoid hypothesis is not even needed. -/
theorem C5_add_remove {m : Measure α A} (hm : m.Lawful) (t : Tree α A) (e : α)
    (ht : Tree.wf 0 t = true) :
    (Tree.add_first (.leaf e) t).get_first = some (.leaf e) ∧
    (∃ t2, (Tree.add_first (.leaf e) t).without_first = some t2 ∧
      t2.toList = t.toList) ∧
    (Tree.add_last (.leaf e) t).get_last = some (.leaf e) ∧
    (∃ t2, (Tree.add_last (.leaf e) t).without_last = some t2 ∧
      t2.toList = t.toList) := by
  have helms := add_first_elems (d := 0) (Elem.leaf e) t ht
  have hw1 : Tree.wf 0 (Tree.add_first (.leaf e) t) = true := add_first_wf rfl ht
  have hne1 : (Tree.add_first (.leaf e) t).is_empty = false := by
    rw [is_empty_eq_false_iff]
    intro hE
    rw [hE] at helms
    simp [Tree.elems] at helms
  obtain ⟨y, t2, hg, hwo, helm, hw2⟩ := get_without_first hw1 hne1
  rw [helms] at helm
  have hy : Elem.leaf e = y ∧ t.elems = t2.elems := by simpa using helm
  have helml := add_last_elems (d := 0) (Elem.leaf e) t ht
  have hw1l : Tree.wf 0 (Tree.add_last (.leaf e) t) = true := add_last_wf rfl ht
  have hne1l : (Tree.add_last (.leaf e) t).is_empty = false := by
    rw [is_empty_eq_false_iff]
    intro hE
    rw [hE] at helml
    simp [Tree.elems] at helml
  obtain ⟨z, t3, hgl, hwl, helm2, hw3⟩ := get_without_last hw1l hne1l
  rw [helml] at helm2
  have hz : t.elems = t3.elems ∧ Elem.leaf e = z := by
    have h1 := congrArg List.dropLast helm2
    have h2 := congrArg List.getLast? helm2
    simp only [List.dropLast_concat] at h1
    simp only [List.getLast?_concat] at h2
    exact ⟨h1, by simpa using h2⟩
  refine ⟨by rw [hg, ← hy.1], ⟨t2, hwo, ?_⟩, by rw [hgl, ← hz.2], ⟨t3, hwl, ?_⟩⟩
  · rw [toList_eq_elems, toList_eq_elems, hy.2]
  · rw [toList_eq_elems, toList_eq_elems, hz.1]

theorem C5_witness :
    (Tree.add_first (.leaf 9) (to_tree (MEASURE_ITEM_COUNT : Measure Nat Nat)
        [1, 2, 3])).get_first = some (.leaf 9) ∧
    (∃ t2, (Tree.add_first (.leaf 9) (to_tree (MEASURE_ITEM_COUNT : Measure Nat Nat)
        [1, 2, 3])).without_first = some t2 ∧
      t2.toList = (to_tree (MEASURE_ITEM_COUNT : Measure Nat Nat) [1, 2, 3]).toList) ∧
    (Tree.add_last (.leaf 9) (to_tree (MEASURE_ITEM_COUNT : Measure Nat Nat)
        [1, 2, 3])).get_last = some (.leaf 9) ∧
    (∃ t2, (Tree.add_last (.leaf 9) (to_tree (MEASURE_ITEM_COUNT : Measure Nat Nat)
        [1, 2, 3])).without_last = some t2 ∧
      t2.toList = (to_tree (MEASURE_ITEM_COUNT : Measure Nat Nat) [1, 2, 3]).toList) :=
  C5_add_remove cm_lawful _ 9 (by decide)

/-- C6: for every well-formed tree over a measure satisfying the monoid
laws and every predicate, monotonic or not, appending the two halves of
partition reproduces the original traversal: nothing is lost or
duplicated. -/
theorem C6_partition_append {m : Measure α A} (hm : m.Lawful) (p : A → Bool)
    (t : Tree α A) (ht : Tree.wf 0 t = true) :
    ((Tree.partition m p t).1.append (Tree.partition m p t).2).toList = t.toList := by
  show ((Tree.partition_with m p t m.identity).1.append
    (Tree.partition_with m p t m.identity).2).toList = t.toList
  obtain ⟨w1, w2⟩ := partition_wf m p t m.identity ht
  rw [(append_spec _ _ w1 w2).2]
  exact (partition_master hm t m.identity ht).1

theorem C6_witness :
    ((Tree.partition (MEASURE_ITEM_COUNT : Measure Nat Nat) (fun c => decide (1 < c))
        (to_tree MEASURE_ITEM_COUNT [1, 2, 3])).1.append
      (Tree.partition (MEASURE_ITEM_COUNT : Measure Nat Nat) (fun c => decide (1 < c))
        (to_tree MEASURE_ITEM_COUNT [1, 2, 3])).2).toList =
      (to_tree (MEASURE_ITEM_COUNT : Measure Nat Nat) [1, 2, 3]).toList :=
  C6_partition_append cm_lawful _ _ (by decide)

/-- C7: on a well-formed tree, each of get_first, get_last, without_first
and without_last fails with TreeIsEmpty (returns none) exactly when the
tree is Empty; on a non-empty tree none of them fails, get_first returns
the first element of the traversal and get_last the last. -/
theorem C7_empty_errors (t : Tree α A) (ht : Tree.wf 0 t = true) :
    (t.get_first = none ↔ t = .empty) ∧
    (t.get_last = none ↔ t = .empty) ∧
    (t.without_first = none ↔ t = .empty) ∧
    (t.without_last = none ↔ t = .empty) ∧
    (∀ v l, t.toList = v :: l → t.get_first = some (.leaf v)) ∧
    (∀ v l, t.toList = l ++ [v] → t.get_last = some (.leaf v)) := by
  by_cases hE : t = .empty
  · subst hE
    refine ⟨by simp [Tree.get_first], by simp [Tree.get_last],
      by simp [Tree.without_first], by simp [Tree.without_last], ?_, ?_⟩
    · intro v l h
      simp [Tree.toList] at h
    · intro v l h
      simp [Tree.toList] at h
  · have hne : t.is_empty = false := is_empty_eq_false_iff.2 hE
    obtain ⟨y, t2, hgf, hwf, helf, _⟩ := get_without_first ht hne
    obtain ⟨z, t3, hgl, hwl, hell, _⟩ := get_without_last ht hne
    have hyd : Elem.depthOK 0 y = true := elems_depthOK ht y (by rw [helf]; simp)
    have hzd : Elem.depthOK 0 z = true := elems_depthOK ht z (by rw [hell]; simp)
    obtain ⟨v0, rfl⟩ : ∃ v0, y = .leaf v0 := by
      cases y with
      | leaf v0 => exact ⟨v0, rfl⟩
      | node2 a b => simp [Elem.depthOK] at hyd
      | node3 a b cc => simp [Elem.depthOK] at hyd
    obtain ⟨w0, rfl⟩ : ∃ w0, z = .leaf w0 := by
      cases z with
      | leaf w0 => exact ⟨w0, rfl⟩
      | node2 a b => simp [Elem.depthOK] at hzd
      | node3 a b cc => simp [Elem.depthOK] at hzd
    have htl1 : t.toList = v0 :: t2.toList := by
      rw [toList_eq_elems, helf, toList_eq_elems t2]
      simp [Elem.toListE]
    have htl2 : t.toList = t3.toList ++ [w0] := by
      rw [toList_eq_elems, hell, toList_eq_elems t3]
      simp [Elem.toListE]
    refine ⟨⟨fun h => by rw [hgf] at h; simp at h, fun h => absurd h hE⟩,
      ⟨fun h => by rw [hgl] at h; simp at h, fun h => absurd h hE⟩,
      ⟨fun h => by rw [hwf] at h; simp at h, fun h => absurd h hE⟩,
      ⟨fun h => by rw [hwl] at h; simp at h, fun h => absurd h hE⟩, ?_, ?_⟩
    · intro v l h
      rw [htl1] at h
      obtain ⟨rfl, -⟩ : v0 = v ∧ t2.toList = l := by simpa using h
      exact hgf
    · intro v l h
      rw [htl2] at h
      have h2 := congrArg List.getLast? h
      simp only [List.getLast?_concat] at h2
      obtain rfl : w0 = v := by simpa using h2
      exact hgl

theorem C7_witness :
    ((to_tree (MEASURE_ITEM_COUNT : Measure Nat Nat) [4, 5, 6]).get_first = none ↔
        to_tree (MEASURE_ITEM_COUNT : Measure Nat Nat) [4, 5, 6] = .empty) ∧
    ((to_tree (MEASURE_ITEM_COUNT : Measure Nat Nat) [4, 5, 6]).get_last = none ↔
        to_tree (MEASURE_ITEM_COUNT : Measure Nat Nat) [4, 5, 6] = .empty) ∧
    ((to_tree (MEASURE_ITEM_COUNT : Measure Nat Nat) [4, 5, 6]).without_first = none ↔
        to_tree (MEASURE_ITEM_COUNT : Measure Nat Nat) [4, 5, 6] = .empty) ∧
    ((to_tree (MEASURE_ITEM_COUNT : Measure Nat Nat) [4, 5, 6]).without_last = none ↔
        to_tree (MEASURE_ITEM_COUNT : Measure Nat Nat) [4, 5, 6] = .empty) ∧
    (∀ v l, (to_tree (MEASURE_ITEM_COUNT : Measure Nat Nat) [4, 5, 6]).toList = v :: l →
        (to_tree (MEASURE_ITEM_COUNT : Measure Nat Nat) [4, 5, 6]).get_first
          = some (.leaf v)) ∧
    (∀ v l, (to_tree (MEASURE_ITEM_COUNT : Measure Nat Nat) [4, 5, 6]).toList = l ++ [v] →
        (to_tree (MEASURE_ITEM_COUNT : Measure Nat Nat) [4, 5, 6]).get_last
          = some (.leaf v)) :=
  C7_empty_errors _ (by decide)

theorem cm_op (x y : Nat) :
    (MEASURE_ITEM_COUNT : Measure α Nat).operator x y = x + y := rfl

theorem cm_op_zero (x : Nat) :
    (MEASURE_ITEM_COUNT : Measure α Nat).operator
      (MEASURE_ITEM_COUNT : Measure α Nat).identity x = x := Nat.zero_add x

theorem cm_ann_leaf (v : α) :
    Elem.ann (MEASURE_ITEM_COUNT : Measure α Nat) (Elem.leaf v) = 1 := rfl

/-- C4: partitioning to_tree(MEASURE_ITEM_COUNT, xs) with the predicate
count > k yields a left half of exactly min(k, len(xs)) elements, and the
two traversals concatenate back to the traversal of the tree. -/
theorem C4_partition_count (xs : List α) (k : Nat) :
    (Tree.partition (MEASURE_ITEM_COUNT : Measure α Nat) (fun c => decide (k < c))
        (to_tree MEASURE_ITEM_COUNT xs)).1.toList.length = min k xs.length ∧
    (Tree.partition (MEASURE_ITEM_COUNT : Measure α Nat) (fun c => decide (k < c))
        (to_tree MEASURE_ITEM_COUNT xs)).1.toList ++
      (Tree.partition (MEASURE_ITEM_COUNT : Measure α Nat) (fun c => decide (k < c))
        (to_tree MEASURE_ITEM_COUNT xs)).2.toList
      = (to_tree (MEASURE_ITEM_COUNT : Measure α Nat) xs).toList := by
  have hw := to_tree_wf (MEASURE_ITEM_COUNT : Measure α Nat) xs
  obtain ⟨ma, mc, me, mf⟩ := partition_master (p := fun c => decide (k < c)) cm_lawful
    (to_tree (MEASURE_ITEM_COUNT : Measure α Nat) xs)
    (MEASURE_ITEM_COUNT : Measure α Nat).identity hw
  have hp0 : (fun c => decide (k < c)) (MEASURE_ITEM_COUNT : Measure α Nat).identity
      = false := by
    simp [MEASURE_ITEM_COUNT]
  constructor
  · show (Tree.partition_with (MEASURE_ITEM_COUNT : Measure α Nat)
        (fun c => decide (k < c)) (to_tree MEASURE_ITEM_COUNT xs)
        (MEASURE_ITEM_COUNT : Measure α Nat).identity).1.toList.length = min k xs.length
    have he := me hp0
    rw [cm_ann_len] at he
    simp only [cm_op_zero, decide_eq_false_iff_not, Nat.not_lt] at he
    have ma2 := ma
    rw [to_tree_toList] at ma2
    have htot := congrArg List.length ma2
    simp only [List.length_append] at htot
    by_cases h2 : (Tree.partition_with (MEASURE_ITEM_COUNT : Measure α Nat)
        (fun c => decide (k < c)) (to_tree MEASURE_ITEM_COUNT xs)
        (MEASURE_ITEM_COUNT : Measure α Nat).identity).2.is_empty = true
    · have hE := is_empty_eq_true_iff.1 h2
      have hxs_le : xs.length ≤ k := by
        by_contra hlt
        have hfire : (fun c => decide (k < c))
            ((MEASURE_ITEM_COUNT : Measure α Nat).operator
              (MEASURE_ITEM_COUNT : Measure α Nat).identity
              (Tree.ann (MEASURE_ITEM_COUNT : Measure α Nat)
                (to_tree MEASURE_ITEM_COUNT xs))) = true := by
          rw [cm_ann_len, to_tree_toList]
          simp only [cm_op_zero, decide_eq_true_eq]
          omega
        have := mc hp0 hfire
        rw [hE] at this
        simp [Tree.is_empty] at this
      have h2nil : (Tree.partition_with (MEASURE_ITEM_COUNT : Measure α Nat)
          (fun c => decide (k < c)) (to_tree MEASURE_ITEM_COUNT xs)
          (MEASURE_ITEM_COUNT : Measure α Nat).identity).2.toList = [] := by
        rw [hE]
        rfl
      rw [h2nil] at htot
      simp only [List.length_nil] at htot
      omega
    · have hne2 : (Tree.partition_with (MEASURE_ITEM_COUNT : Measure α Nat)
          (fun c => decide (k < c)) (to_tree MEASURE_ITEM_COUNT xs)
          (MEASURE_ITEM_COUNT : Measure α Nat).identity).2.is_empty = false :=
        bool_ne_true h2
      have hwf2 := (partition_wf (MEASURE_ITEM_COUNT : Measure α Nat)
        (fun c => decide (k < c)) (to_tree MEASURE_ITEM_COUNT xs)
        (MEASURE_ITEM_COUNT : Measure α Nat).identity hw).2
      obtain ⟨y, t2, hy, hwt2, hel, hw2⟩ := get_without_first hwf2 hne2
      have hyd : Elem.depthOK 0 y = true := elems_depthOK hwf2 y (by rw [hel]; simp)
      obtain ⟨v, rfl⟩ : ∃ v, y = .leaf v := by
        cases y with
        | leaf v => exact ⟨v, rfl⟩
        | node2 a b => simp [Elem.depthOK] at hyd
        | node3 a b cc => simp [Elem.depthOK] at hyd
      have hf := mf hp0 _ hy
      rw [cm_ann_len] at hf
      simp only [cm_ann_leaf, cm_op, cm_op_zero, decide_eq_true_eq] at hf
      have h2pos : (Tree.partition_with (MEASURE_ITEM_COUNT : Measure α Nat)
          (fun c => decide (k < c)) (to_tree MEASURE_ITEM_COUNT xs)
          (MEASURE_ITEM_COUNT : Measure α Nat).identity).2.toList = v :: t2.toList := by
        rw [toList_eq_elems, hel, toList_eq_elems t2]
        simp [Elem.toListE]
      rw [h2pos] at htot
      simp only [List.length_cons] at htot
      have hid : (MEASURE_ITEM_COUNT : Measure α Nat).identity = 0 := rfl
      omega
  · exact ma

end Ttftree
